import Mathlib

/-!
The store marmot-kv: the record codec, the append log and the engine.

A shallow embedding of `02.advanced-kv` (`entry.go`, `marmot_file.go`,
`marmot_kv.go`).

Conventions of the embedding:

* a Go `[]byte` is a `List Byte`, a byte being a `Fin 256`; the capacity of a slice is
  taken equal to its length;
* Go `int`/`int64` are 64 bits wide and are embedded as `Nat` (no file in the model comes
  near `2^63` bytes); `uint32` arithmetic is embedded as `Nat` arithmetic followed by
  `% 2^32`, exactly where the source computes in `uint32`;
* a Go function returning `(T, error)` becomes a function into `Res T`; a Go method that
  mutates its receiver and returns `error` becomes a function into `Outcome State`;
  a run-time panic is a separate constructor of both, never an `error`.
-/

namespace Marmot

/-! ## Bytes and results -/

/-- One byte. -/
abbrev Byte := Fin 256

/-- A Go `uint16`. -/
abbrev Uint16 := Fin 65536

/-- The `error` values the package can return. -/
inductive GoError where
  /-- `errors.New("insufficient buffer length")`, from `Decode`. -/
  | insufficientBufferLength
  /-- `errors.New("invalid buffer length")`, from `Decode`. -/
  | invalidBufferLength
  /-- `io.EOF`, from `ReadAt` when fewer bytes than asked are left. -/
  | EOF
  /-- `os.ErrClosed`, from an operation on a closed file handle. -/
  | ErrClosed
  /-- The `fmt.Errorf` of `Get`: the key is not in the index. -/
  | keyDoesNotExist
  /-- `errors.New("error reading entry")`, from `Merge`. -/
  | errorReadingEntry
  /-- `errors.New("invalid marmotFile")`, from `Close`. -/
  | invalidMarmotFile
  deriving DecidableEq, Repr

/-- The run-time panics the package can raise. -/
inductive GoPanic where
  /-- A slice expression `b[lo:hi]` with `lo > hi` or `hi > cap(b)`. -/
  | sliceBoundsOutOfRange
  /-- The `panic(flushErr)` of the deferred flush in `MarmotFile.Write`. -/
  | flushError (e : GoError)
  deriving DecidableEq, Repr

/-- Result of a Go function returning `(T, error)`: a value with a nil error, a nil value
with an error, or a panic. -/
inductive Res (α : Type) where
  | ok (a : α)
  | error (e : GoError)
  | panic (p : GoPanic)
  deriving DecidableEq, Repr

/-- Result of a Go method that mutates state and returns `error`: the state it leaves and
the error it returns (`none` is `nil`), or a panic. -/
inductive Outcome (σ : Type) where
  | done (s : σ) (err : Option GoError)
  | panic (p : GoPanic)
  deriving DecidableEq

/-! ## `entry.go` -/

/-- The constant `entryHeaderSize`. -/
def entryHeaderSize : Nat := 10

/-- The constant `PUT` (`iota` = 0). -/
def PUT : Uint16 := 0

/-- The constant `DEL` (`iota` = 1). -/
def DEL : Uint16 := 1

/-- The struct `Entry`. -/
structure Entry where
  Key : List Byte
  Value : List Byte
  Mark : Uint16
  deriving DecidableEq, Repr

/-- The constructor `NewEntry`. -/
def NewEntry (key value : List Byte) (mark : Uint16) : Entry :=
  { Key := key, Value := value, Mark := mark }

/-- The method `Entry.GetSize`: computed in `int`. -/
def Entry.GetSize (e : Entry) : Nat :=
  entryHeaderSize + e.Key.length + e.Value.length

/-- The conversion `byte(n)`: the low eight bits. -/
def toByte (n : Nat) : Byte := ⟨n % 256, Nat.mod_lt _ (by decide)⟩

/-- The call `binary.BigEndian.PutUint32` on a `uint32` value `v`, as the four bytes it stores. -/
def PutUint32 (v : Nat) : List Byte :=
  [toByte (v / 2 ^ 24), toByte (v / 2 ^ 16), toByte (v / 2 ^ 8), toByte v]

/-- The call `binary.BigEndian.PutUint16`, as the two bytes it stores. -/
def PutUint16 (v : Uint16) : List Byte :=
  [toByte (v.val / 2 ^ 8), toByte v.val]

/-- The call `binary.BigEndian.Uint32` on a four-byte slice. -/
def Uint32 (b : List Byte) : Nat :=
  match b with
  | [b0, b1, b2, b3] => b0.val * 2 ^ 24 + b1.val * 2 ^ 16 + b2.val * 2 ^ 8 + b3.val
  | _ => 0

/-- The call `binary.BigEndian.Uint16` on a two-byte slice. -/
def Uint16.ofBytes (b : List Byte) : Uint16 :=
  match b with
  | [b0, b1] => ⟨b0.val * 2 ^ 8 + b1.val, by have := b0.isLt; have := b1.isLt; omega⟩
  | _ => 0

/-- The method `Entry.Encode`. The two sizes are `uint32(len(..))`, so they are the lengths
modulo `2^32`; the error result is always nil, so only the bytes are returned. -/
def Entry.Encode (e : Entry) : List Byte :=
  let keySize := e.Key.length % 2 ^ 32
  let valSize := e.Value.length % 2 ^ 32
  PutUint32 keySize ++ PutUint32 valSize ++ PutUint16 e.Mark ++ e.Key ++ e.Value

/-- The slice expression `b[lo:hi]`: `none` stands for the run-time panic raised when
`lo > hi` or `hi > cap(b)` (the capacity being the length). -/
def sliceExpr (b : List Byte) (lo hi : Nat) : Option (List Byte) :=
  if lo ≤ hi ∧ hi ≤ b.length then some ((b.drop lo).take (hi - lo)) else none

/-- The function `Decode`. `keySize`, `valSize` and `entryLength` are `uint32`, and so is
the slice bound `entryHeaderSize+keySize`: each sum is taken modulo `2^32`. The length test
compares `len(buf)` with `int(entryLength)`. -/
def Decode (buf : List Byte) : Res Entry :=
  if buf.length < entryHeaderSize then .error .insufficientBufferLength
  else
    let keySize := Uint32 (buf.take 4)
    let valSize := Uint32 ((buf.drop 4).take 4)
    let mark := Uint16.ofBytes ((buf.drop 8).take 2)
    let entryLength := (entryHeaderSize + keySize + valSize) % 2 ^ 32
    if buf.length ≠ entryLength then .error .invalidBufferLength
    else
      match sliceExpr buf entryHeaderSize ((entryHeaderSize + keySize) % 2 ^ 32),
            sliceExpr buf ((entryHeaderSize + keySize) % 2 ^ 32) entryLength with
      | some key, some value => .ok { Key := key, Value := value, Mark := mark }
      | _, _ => .panic .sliceBoundsOutOfRange

/-! ## `marmot_file.go` -/

/-- The two file names of the data directory: the constants `FileName` ("marmot.data") and
`MergeFileName` ("marmot.data.merge"). -/
inductive Path where
  | FileName
  | MergeFileName
  deriving DecidableEq, Repr

/-- The struct `MarmotFile`: an `*os.File` with the field `Offset`. The handle is modelled by
the name it was opened under (`File.Name()`), the bytes of the file it is open on, the file
position of the handle (where the next sequential `write` lands; `ReadAt` does not use it)
and whether the handle has been closed. -/
structure MarmotFile where
  name : Path
  data : List Byte
  pos : Nat
  closed : Bool
  Offset : Nat
  deriving DecidableEq, Repr

/-- The function `newInternal`, on a file whose present content is `content` (empty when
`O_CREATE` has just created it). `os.OpenFile` is called with `O_CREATE|O_RDWR` only, so the
handle's file position starts at 0, whereas `Offset` is set to `stat.Size()`. Failures of
`OpenFile` and `Stat` are not modelled. -/
def newInternal (fileName : Path) (content : List Byte) : MarmotFile :=
  { name := fileName, data := content, pos := 0, closed := false, Offset := content.length }

/-- The function `NewMarmotFile`. -/
def NewMarmotFile (content : List Byte) : MarmotFile :=
  newInternal .FileName content

/-- The function `NewMergeMarmotFile`. -/
def NewMergeMarmotFile (content : List Byte) : MarmotFile :=
  newInternal .MergeFileName content

/-- The promoted method `os.File.ReadAt` for a buffer of `n > 0` bytes: the `n` bytes at
`off`, `io.EOF` when fewer than `n` bytes are left, `os.ErrClosed` on a closed handle. -/
def MarmotFile.ReadAt (df : MarmotFile) (n off : Nat) : Res (List Byte) :=
  if df.closed then .error .ErrClosed
  else if off + n ≤ df.data.length then .ok ((df.data.drop off).take n)
  else .error .EOF

/-- The effect of `write(2)` of the bytes `b` at file position `pos`: the bytes at
`[pos, pos + len b)` are replaced, the file grows when the write runs past its end (a gap
before `pos` reads as zeros). -/
def writeAt (data : List Byte) (pos : Nat) (b : List Byte) : List Byte :=
  data.take pos ++ List.replicate (pos - data.length) 0 ++ b ++ data.drop (pos + b.length)

/-- The method `MarmotFile.Read`. -/
def MarmotFile.Read (df : MarmotFile) (offset : Nat) : Res Entry :=
  match df.ReadAt entryHeaderSize offset with
  | .error err => .error err
  | .panic p => .panic p
  | .ok buf =>
    match Decode buf with
    | .error err => .error err
    | .panic p => .panic p
    | .ok e =>
      let offset := offset + entryHeaderSize
      match (if e.Key.length > 0 then df.ReadAt e.Key.length offset else .ok e.Key) with
      | .error err => .error err
      | .panic p => .panic p
      | .ok key =>
        let e := { e with Key := key }
        let offset := offset + e.Key.length
        match (if e.Value.length > 0 then df.ReadAt e.Value.length offset else .ok e.Value) with
        | .error err => .error err
        | .panic p => .panic p
        | .ok value => .ok { e with Value := value }

/-- The method `MarmotFile.Write`. `Encode` never fails. The bytes go through a fresh
`bufio.Writer` that the deferred function flushes, so they reach the file at the handle's file
position. On a handle that accepts the write the method returns nil; on a closed handle the
underlying write fails and the deferred `Flush` reports it, which the source turns into
`panic(flushErr)` (also when `writer.Write` itself saw the failure, as the writer's error is
sticky). -/
def MarmotFile.Write (df : MarmotFile) (e : Entry) : Outcome MarmotFile :=
  let enc := e.Encode
  if df.closed then .panic (.flushError .ErrClosed)
  else
    .done { df with data := writeAt df.data df.pos enc
                    pos := df.pos + enc.length
                    Offset := df.Offset + e.GetSize } none

/-- The method `MarmotFile.Close`. -/
def MarmotFile.Close (df : MarmotFile) : Outcome MarmotFile :=
  if df.closed then .done df (some .ErrClosed) else .done { df with closed := true } none

/-! ## `marmot_kv.go` -/

/-- The map `indexes` of type `map[string]int64`, keyed by `string(key)`. -/
abbrev Index := List Byte → Option Nat

/-- The empty map, `make(map[string]int64)`. -/
def Index.empty : Index := fun _ => none

/-- The assignment `indexes[key] = off`. -/
def Index.set (idx : Index) (key : List Byte) (off : Nat) : Index :=
  fun k => if k = key then some off else idx k

/-- The call `delete(indexes, key)`. -/
def Index.delete (idx : Index) (key : List Byte) : Index :=
  fun k => if k = key then none else idx k

/-- The struct `MarmotKV`: the index and the data file. The directory path and the mutex are
left out: calls are modelled one at a time. -/
structure MarmotKV where
  indexes : Index
  marmotFile : MarmotFile

/-- The function `newMarmotKV`. -/
def newMarmotKV (marmotFile : MarmotFile) : MarmotKV :=
  { indexes := Index.empty, marmotFile := marmotFile }

/-- The loop of `loadIndexesFromFile`, from `offset` on. The first argument bounds the number
of iterations; `none` means the bound was reached. A read error ends the loop, `io.EOF` by
`break` and any other error by `return`, both leaving the index as built so far. -/
def loadIndexesLoop (df : MarmotFile) : Nat → Nat → Index → Option (Res Index)
  | 0, _, _ => none
  | fuel + 1, offset, idx =>
    match df.Read offset with
    | .panic p => some (.panic p)
    | .error err => if err = .EOF then some (.ok idx) else some (.ok idx)
    | .ok e =>
      let idx := idx.set e.Key offset
      let idx := if e.Mark = DEL then idx.delete e.Key else idx
      loadIndexesLoop df fuel (offset + e.GetSize) idx

/-- The method `loadIndexesFromFile` (the handle is never nil here). Every iteration advances
the offset by at least the header size, so `len + 1` iterations are enough
(`loadIndexesLoop_fuel_enough`). -/
def loadIndexesFromFile (db : MarmotKV) : Res MarmotKV :=
  match loadIndexesLoop db.marmotFile (db.marmotFile.data.length + 1) 0 db.indexes with
  | some (.ok idx) => .ok { db with indexes := idx }
  | some (.error err) => .error err
  | some (.panic p) => .panic p
  | none => .ok db

/-- The function `Open`, on a directory whose data file has the bytes `content` (empty when
the directory or the file did not exist). Failures of `Mkdir` and of opening the file are
not modelled. -/
def Open (content : List Byte) : Res MarmotKV :=
  loadIndexesFromFile (newMarmotKV (NewMarmotFile content))

/-- The method `MarmotKV.Put`. The index is assigned after `Write` whatever `Write`
returned, and `Put` returns that error. -/
def Put (db : MarmotKV) (key value : List Byte) : Outcome MarmotKV :=
  if key.length = 0 then .done db none
  else
    let offset := db.marmotFile.Offset
    let entry := NewEntry key value PUT
    match db.marmotFile.Write entry with
    | .panic p => .panic p
    | .done mf err => .done { indexes := db.indexes.set key offset, marmotFile := mf } err

/-- The method `MarmotKV.Get`: `.ok none` is a nil value with a nil error, `.ok (some v)`
the value `v` with a nil error, `.error err` a nil value with the error `err`. When `Read`
fails the entry is nil, so the value stays nil both for `io.EOF` and for any other error. -/
def Get (db : MarmotKV) (key : List Byte) : Res (Option (List Byte)) :=
  if key.length = 0 then .ok none
  else
    match db.indexes key with
    | none => .error .keyDoesNotExist
    | some offset =>
      match db.marmotFile.Read offset with
      | .panic p => .panic p
      | .error err => if err ≠ .EOF then .error err else .error err
      | .ok e => .ok (some e.Value)

/-- The method `MarmotKV.Del`. -/
def Del (db : MarmotKV) (key : List Byte) : Outcome MarmotKV :=
  if key.length = 0 then .done db none
  else
    match db.indexes key with
    | none => .done db none
    | some _ =>
      let e := NewEntry key [] DEL
      match db.marmotFile.Write e with
      | .panic p => .panic p
      | .done mf (some err) => .done { db with marmotFile := mf } (some err)
      | .done mf none => .done { indexes := db.indexes.delete key, marmotFile := mf } none

/-- The method `MarmotKV.Close` (the handle is never nil here). -/
def Close (db : MarmotKV) : Outcome MarmotKV :=
  match db.marmotFile.Close with
  | .panic p => .panic p
  | .done mf err => .done { db with marmotFile := mf } err

/-- The loop of `writeBatch`, with the running write offset `writeOff`. -/
def writeBatchLoop (db : MarmotKV) (mergeMarmotFile : MarmotFile) (writeOff : Nat) :
    List Entry → Outcome (MarmotKV × MarmotFile)
  | [] => .done (db, mergeMarmotFile) none
  | entry :: rest =>
    match mergeMarmotFile.Write entry with
    | .panic p => .panic p
    | .done mf (some err) => .done (db, mf) (some err)
    | .done mf none =>
      writeBatchLoop { db with indexes := db.indexes.set entry.Key writeOff } mf
        (writeOff + entry.GetSize) rest

/-- The method `writeBatch`. -/
def writeBatch (db : MarmotKV) (mergeMarmotFile : MarmotFile) (batch : List Entry) :
    Outcome (MarmotKV × MarmotFile) :=
  writeBatchLoop db mergeMarmotFile mergeMarmotFile.Offset batch

/-- The scan of `Merge` together with the batching loop that consumes it. The goroutine and
the unbuffered channel are run in lock step: the reader hands over an entry, the receiving
loop runs up to its next receive (writing the batch out when it holds 1000 entries), then the
reader goes on. The result holds the engine, the merge file and the pending batch, with the
error `Merge` is about to return, if any: a nil entry on the channel gives
"error reading entry", a closed channel gives no error. The first argument bounds the
number of iterations; `none` means the bound was reached. -/
def mergeLoop : Nat → MarmotKV → MarmotFile → Nat → List Entry →
    Option (Outcome (MarmotKV × MarmotFile × List Entry))
  | 0, _, _, _, _ => none
  | fuel + 1, db, mergeMarmotFile, offset, batch =>
    match db.marmotFile.Read offset with
    | .panic p => some (.panic p)
    | .error err =>
      if err = .EOF then some (.done (db, mergeMarmotFile, batch) none)
      else some (.done (db, mergeMarmotFile, batch) (some .errorReadingEntry))
    | .ok e =>
      if db.indexes e.Key = some offset then
        let batch := batch ++ [e]
        if batch.length = 1000 then
          match writeBatch db mergeMarmotFile batch with
          | .panic p => some (.panic p)
          | .done (db1, mf1) (some err) => some (.done (db1, mf1, batch) (some err))
          | .done (db1, mf1) none => mergeLoop fuel db1 mf1 (offset + e.GetSize) []
        else mergeLoop fuel db mergeMarmotFile (offset + e.GetSize) batch
      else mergeLoop fuel db mergeMarmotFile (offset + e.GetSize) batch

/-- The swap at the end of `Merge`, with the deferred clean-up: the old handle is closed, the
merge file is renamed to the name of the old handle and becomes the data file. The deferred
`os.Remove` of the merge file's name then finds a file only if the rename did not move it
away, that is if the old handle was itself named `MergeFileName`; in that case the deferred
function goes on to close the merge handle. When closing the old handle fails, `Merge`
returns that error with the engine still on the old handle. -/
def mergeSwap (db : MarmotKV) (mergeMarmotFile : MarmotFile) : Outcome MarmotKV :=
  let marmotFileName := db.marmotFile.name
  match db.marmotFile.Close with
  | .panic p => .panic p
  | .done _ (some err) => .done db (some err)
  | .done _ none =>
    let mf := if marmotFileName = .MergeFileName then { mergeMarmotFile with closed := true }
              else mergeMarmotFile
    .done { db with marmotFile := mf } none

/-- The method `MarmotKV.Merge`, in a directory whose merge file holds the bytes
`mergeContent` when the call starts (empty when there is no such file, as after an earlier call
that ran to its end). `NewMergeMarmotFile` opens that file without truncating it, so a file left
behind keeps its bytes and sets the `Offset` of the merge handle to its size. On every error
path the deferred function removes the merge file and the engine keeps its data file; the index
is the one the batches written so far have left. -/
def Merge (db : MarmotKV) (mergeContent : List Byte) : Outcome MarmotKV :=
  if db.marmotFile.Offset = 0 then .done db none
  else
    let mergeMarmotFile := NewMergeMarmotFile mergeContent
    match mergeLoop (db.marmotFile.data.length + 1) db mergeMarmotFile 0 [] with
    | none => .done db none
    | some (.panic p) => .panic p
    | some (.done (db1, _, _) (some err)) => .done db1 (some err)
    | some (.done (db1, mf1, batch) none) =>
      match (if batch.length > 0 then writeBatch db1 mf1 batch else .done (db1, mf1) none) with
      | .panic p => .panic p
      | .done (db2, _) (some err) => .done db2 (some err)
      | .done (db2, mf2) none => mergeSwap db2 mf2

/-! ## Sequences of calls -/

/-- A mutating call of the public interface. -/
inductive Op where
  | put (key value : List Byte)
  | del (key : List Byte)
  deriving DecidableEq, Repr

/-- One call on an engine. -/
def Op.apply (db : MarmotKV) : Op → Outcome MarmotKV
  | .put key value => Put db key value
  | .del key => Del db key

/-- A sequence of calls, one after the other, the caller going on after an error and
stopping at a panic. -/
def runOps : MarmotKV → List Op → Outcome MarmotKV
  | db, [] => .done db none
  | db, op :: ops =>
    match op.apply db with
    | .panic p => .panic p
    | .done db1 _ => runOps db1 ops

/-- The engine that `Open` returns on an empty directory. -/
def freshStore : MarmotKV := newMarmotKV (NewMarmotFile [])

/-- The call `Close` followed by `Open` on the same directory, for an engine whose handle is
open on the directory's data file: the new engine is built from the bytes of that file. -/
def reopen (db : MarmotKV) : Res MarmotKV :=
  match Close db with
  | .panic p => .panic p
  | .done db1 _ => Open db1.marmotFile.data

/-- The key "a". -/
def keyA : List Byte := [97]

/-- The key "b". -/
def keyB : List Byte := [98]

/-- The value "1". -/
def val1 : List Byte := [49]

/-- The value "2". -/
def val2 : List Byte := [50]

/-- The bytes of "hello". -/
def hello : List Byte := [104, 101, 108, 108, 111]

/-- The bytes of "world". -/
def world : List Byte := [119, 111, 114, 108, 100]

/-- A handle in the state of a file written only through this handle since it was created:
open, with the file position and `Offset` both at the end of the file. -/
def MarmotFile.AtTail (df : MarmotFile) : Prop :=
  df.closed = false ∧ df.pos = df.Offset ∧ df.Offset = df.data.length

/-- The size a call adds to the log when it appends a record. -/
def Op.recordSize : Op → Nat
  | .put key value => (NewEntry key value PUT).GetSize
  | .del key => (NewEntry key [] DEL).GetSize

/-- The log is empty or starts with the encoding of a record that has a non-empty key or
value and fits the 32-bit length fields. -/
def StartsWithRecord (data : List Byte) : Prop :=
  data = [] ∨ ∃ e post, data = Entry.Encode e ++ post ∧ 0 < e.Key.length + e.Value.length ∧
    entryHeaderSize + e.Key.length + e.Value.length < 2 ^ 32

/-- The spec's big-endian unsigned field: the low `8 * w` bits of `n` on `w` bytes, most
significant byte first. -/
def specBigEndian : Nat → Nat → List Byte
  | 0, _ => []
  | w + 1, n => specBigEndian w (n / 256) ++ [toByte n]

/-- The number a big-endian byte sequence stands for. -/
def bigEndianValue (b : List Byte) : Nat :=
  b.foldl (fun acc x => acc * 256 + x.val) 0

/-- The record layout in the spec's words: key length on 4 bytes, value length on 4 bytes,
operation tag on 2 bytes, all big-endian, then the key bytes, then the value bytes. -/
def specRecord (k v : List Byte) (op : Uint16) : List Byte :=
  specBigEndian 4 k.length ++ specBigEndian 4 v.length ++ specBigEndian 2 op.val ++ k ++ v

/-- The log that holds the records `rs`, one encoding after the other. -/
def encodeAll : List Entry → List Byte
  | [] => []
  | r :: rs => r.Encode ++ encodeAll rs

/-- The records of a log that the index points at: of the records `rs` laid out from offset
`o` on, those whose own offset is the index entry of their key, in file order. -/
def liveRecords (idx : Index) : Nat → List Entry → List Entry
  | _, [] => []
  | o, r :: rs =>
    if idx r.Key = some o then r :: liveRecords idx (o + r.GetSize) rs
    else liveRecords idx (o + r.GetSize) rs

/-- The records `rs` laid out from offset `o` on, each with the offset at which it begins. -/
def withOffsets : Nat → List Entry → List (Entry × Nat)
  | _, [] => []
  | o, r :: rs => (r, o) :: withOffsets (o + r.GetSize) rs

/-- What the scan of `Merge` keeps true of its pending batch at offset `offset`: the batch is
empty, or it holds one entry and the index entry of the empty key lies before `offset`. -/
def BatchInv (idx : Index) (offset : Nat) (batch : List Entry) : Prop :=
  batch = [] ∨ (batch.length = 1 ∧ ∃ o, idx [] = some o ∧ o < offset)

/-- The log holds at offset `o` the encoding of a `Put` record with key `k`. -/
def HoldsPutRecord (data : List Byte) (o : Nat) (k : List Byte) : Prop :=
  ∃ v post, data.drop o = (NewEntry k v PUT).Encode ++ post

/-- The engine opened on an empty directory, after `Put("a","1")`. -/
def storeA : MarmotKV :=
  { indexes := Index.empty.set keyA 0
    marmotFile := { name := .FileName, data := (NewEntry keyA val1 PUT).Encode, pos := 12,
                    closed := false, Offset := 12 } }

/-- The bookkeeping every handle keeps from `newInternal` on: the file position is not past
`Offset`, and `Offset` is not before the end of the file. -/
def MarmotFile.TailOk (df : MarmotFile) : Prop :=
  df.pos ≤ df.Offset ∧ df.data.length ≤ df.Offset

/-- The log that holds one record with an empty key and an empty value. -/
def emptyRecordLog : List Byte := (NewEntry [] [] PUT).Encode

/-- The engine that `Open` returns on a directory whose log is `emptyRecordLog`. -/
def storeE : MarmotKV :=
  { indexes := Index.empty.set [] 0, marmotFile := NewMarmotFile emptyRecordLog }

/-- The engine that `Merge` leaves when called on `storeE` in a directory without a merge
file. -/
def mergedE : MarmotKV :=
  { indexes := (Index.empty.set [] 0).set [] 0
    marmotFile := { name := .MergeFileName, data := emptyRecordLog, pos := 10, closed := false,
                    Offset := 10 } }

/-! ## The mutex in `Merge` -/

/-- What `Merge` does with the mutex `db.mu` and with the state it guards, in program order. -/
inductive Event where
  /-- The call `db.mu.Lock()`. -/
  | lock
  /-- The deferred call `db.mu.Unlock()`. -/
  | unlock
  /-- The call `db.marmotFile.Read(offset)` of the scan. -/
  | readFile (offset : Nat)
  /-- The lookup `db.indexes[string(e.Key)]` of the scan. -/
  | readIndex (key : List Byte)
  /-- The assignment `db.indexes[string(entry.Key)] = writeOff` of `writeBatch`. -/
  | writeIndex (key : List Byte) (writeOff : Nat)
  /-- The replacement of the data file: close, rename, `db.marmotFile = mergeMarmotFile`. -/
  | swapFile
  deriving DecidableEq, Repr

/-- The events of the loop of `writeBatch`, which follows `writeBatchLoop`. -/
def writeBatchLoopEvents (mergeMarmotFile : MarmotFile) (writeOff : Nat) :
    List Entry → List Event
  | [] => []
  | entry :: rest =>
    match mergeMarmotFile.Write entry with
    | .done mf none =>
      .writeIndex entry.Key writeOff :: writeBatchLoopEvents mf (writeOff + entry.GetSize) rest
    | _ => []

/-- The events of the scan and of the batches written during it, which follows `mergeLoop`
and its lock-step order. -/
def mergeLoopEvents : Nat → MarmotKV → MarmotFile → Nat → List Entry → List Event
  | 0, _, _, _, _ => []
  | fuel + 1, db, mergeMarmotFile, offset, batch =>
    .readFile offset ::
      match db.marmotFile.Read offset with
      | .ok e =>
        .readIndex e.Key ::
          (if db.indexes e.Key = some offset then
            let batch := batch ++ [e]
            if batch.length = 1000 then
              writeBatchLoopEvents mergeMarmotFile mergeMarmotFile.Offset batch ++
                match writeBatch db mergeMarmotFile batch with
                | .done (db1, mf1) none => mergeLoopEvents fuel db1 mf1 (offset + e.GetSize) []
                | _ => []
            else mergeLoopEvents fuel db mergeMarmotFile (offset + e.GetSize) batch
          else mergeLoopEvents fuel db mergeMarmotFile (offset + e.GetSize) batch)
      | _ => []

/-- The events of a call of `Merge`, which follows `Merge`: the scan with its batches, the
last batch, then `db.mu.Lock()`, the swap and the deferred `db.mu.Unlock()`. The mutex is not
touched before the swap, and not at all when `Merge` returns earlier. -/
def MergeEvents (db : MarmotKV) (mergeContent : List Byte) : List Event :=
  if db.marmotFile.Offset = 0 then []
  else
    let mergeMarmotFile := NewMergeMarmotFile mergeContent
    mergeLoopEvents (db.marmotFile.data.length + 1) db mergeMarmotFile 0 [] ++
      match mergeLoop (db.marmotFile.data.length + 1) db mergeMarmotFile 0 [] with
      | some (.done (db1, mf1, batch) none) =>
        (if batch.length > 0 then writeBatchLoopEvents mf1 mf1.Offset batch else []) ++
          match (if batch.length > 0 then writeBatch db1 mf1 batch
                 else .done (db1, mf1) none) with
          | .done (db2, _) none =>
            .lock ::
              (match db2.marmotFile.Close with
               | .done _ none => [.swapFile, .unlock]
               | _ => [.unlock])
          | _ => []
      | _ => []

/-- Whether every access to the guarded state in a run happens while the mutex is held;
the first argument tells whether it is held at the start. -/
def lockHeldThroughout : Bool → List Event → Bool
  | _, [] => true
  | _, .lock :: es => lockHeldThroughout true es
  | _, .unlock :: es => lockHeldThroughout false es
  | held, _ :: es => held && lockHeldThroughout held es

/-- A merge file left behind by an interrupted call of `Merge`: the 20 bytes of the record
`Put("hello","world")`. -/
def staleMergeFile : List Byte := (NewEntry hello world PUT).Encode

/-! ## The codec: lemmas -/

theorem Uint32_PutUint32 (v : Nat) (h : v < 2 ^ 32) : Uint32 (PutUint32 v) = v := by
  simp only [Uint32, PutUint32, toByte]
  omega

theorem Uint32_lt (b : List Byte) : Uint32 b < 2 ^ 32 := by
  unfold Uint32
  split
  · rename_i b0 b1 b2 b3
    have := b0.isLt; have := b1.isLt; have := b2.isLt; have := b3.isLt
    omega
  · decide

theorem Uint16_PutUint16 (m : Uint16) : Uint16.ofBytes (PutUint16 m) = m := by
  apply Fin.ext
  have := m.isLt
  simp only [Uint16.ofBytes, PutUint16, toByte]
  omega

theorem PutUint32_length (v : Nat) : (PutUint32 v).length = 4 := rfl

theorem PutUint16_length (m : Uint16) : (PutUint16 m).length = 2 := rfl

theorem Encode_length (e : Entry) : e.Encode.length = e.GetSize := by
  simp only [Entry.Encode, Entry.GetSize, entryHeaderSize, List.length_append, PutUint32_length,
    PutUint16_length]

theorem Encode_take4 (e : Entry) : e.Encode.take 4 = PutUint32 (e.Key.length % 2 ^ 32) := by
  simp [Entry.Encode, PutUint32]

theorem Encode_drop4_take4 (e : Entry) :
    (e.Encode.drop 4).take 4 = PutUint32 (e.Value.length % 2 ^ 32) := by
  simp [Entry.Encode, PutUint32]

theorem Encode_drop8_take2 (e : Entry) : (e.Encode.drop 8).take 2 = PutUint16 e.Mark := by
  simp [Entry.Encode, PutUint32, PutUint16]

theorem Encode_drop10 (e : Entry) : e.Encode.drop 10 = e.Key ++ e.Value := by
  simp [Entry.Encode, PutUint32, PutUint16]

theorem Decode_Encode_of_small (e : Entry)
    (h : entryHeaderSize + e.Key.length + e.Value.length < 2 ^ 32) :
    Decode e.Encode = .ok e := by
  unfold entryHeaderSize at h
  have hk : e.Key.length % 2 ^ 32 = e.Key.length := Nat.mod_eq_of_lt (by omega)
  have hv : e.Value.length % 2 ^ 32 = e.Value.length := Nat.mod_eq_of_lt (by omega)
  have hkey : (e.Encode.drop 10).take e.Key.length = e.Key := by
    rw [Encode_drop10]; simp
  have hval : (e.Encode.drop (10 + e.Key.length)).take e.Value.length = e.Value := by
    rw [← List.drop_drop, Encode_drop10]; simp
  unfold Decode
  rw [Encode_take4, Encode_drop4_take4, Encode_drop8_take2, Uint32_PutUint32 _ (by omega),
    Uint32_PutUint32 _ (by omega), Uint16_PutUint16, Encode_length, hk, hv]
  simp only [Entry.GetSize, entryHeaderSize, sliceExpr]
  rw [Nat.mod_eq_of_lt h, Nat.mod_eq_of_lt (by omega : 10 + e.Key.length < 2 ^ 32)]
  have e1 : 10 + e.Key.length - 10 = e.Key.length := by omega
  have e2 : 10 + e.Key.length + e.Value.length - (10 + e.Key.length) = e.Value.length := by
    omega
  simp [e1, e2, hkey, hval, Encode_length, Entry.GetSize, entryHeaderSize]
  omega

theorem Decode_Encode_of_large (e : Entry)
    (h : 2 ^ 32 ≤ entryHeaderSize + e.Key.length + e.Value.length) :
    Decode e.Encode = .error .invalidBufferLength := by
  unfold entryHeaderSize at h
  unfold Decode
  rw [Encode_length]
  simp only [Entry.GetSize, entryHeaderSize]
  have hlt : (10 + Uint32 (List.take 4 e.Encode) + Uint32 (List.take 4 (List.drop 4 e.Encode)))
      % 2 ^ 32 < 2 ^ 32 := Nat.mod_lt _ (by decide)
  rw [if_neg (by omega), if_pos (by omega)]

theorem Decode_Encode_of_key_length (k : List Byte) (hk : k.length = 2 ^ 32) :
    Decode (NewEntry k [] PUT).Encode = .error .invalidBufferLength := by
  apply Decode_Encode_of_large
  show 2 ^ 32 ≤ entryHeaderSize + k.length + 0
  omega

/-- Characterisation of the panic of `Decode`: the buffer passes the length test although the
unbounded sum of the header size and the two declared lengths does not fit in 32 bits. -/
theorem Decode_panic_iff (buf : List Byte) :
    Decode buf = .panic .sliceBoundsOutOfRange ↔
      entryHeaderSize ≤ buf.length ∧
      buf.length = (entryHeaderSize + Uint32 (buf.take 4) + Uint32 ((buf.drop 4).take 4)) % 2 ^ 32 ∧
      2 ^ 32 ≤ entryHeaderSize + Uint32 (buf.take 4) + Uint32 ((buf.drop 4).take 4) := by
  have hk := Uint32_lt (buf.take 4)
  have hv := Uint32_lt ((buf.drop 4).take 4)
  unfold Decode sliceExpr
  simp only [entryHeaderSize]
  split_ifs <;> simp <;> omega

/-- An entry is returned only for a buffer whose length is the unbounded sum of the header
size and the two declared lengths. -/
theorem Decode_ok_length (buf : List Byte) (e : Entry) (h : Decode buf = .ok e) :
    buf.length = entryHeaderSize + Uint32 (buf.take 4) + Uint32 ((buf.drop 4).take 4) := by
  have hk := Uint32_lt (buf.take 4)
  have hv := Uint32_lt ((buf.drop 4).take 4)
  revert h
  unfold Decode sliceExpr
  simp only [entryHeaderSize]
  split_ifs <;> simp
  omega

/-! ## The append log: lemmas -/

theorem ReadAt_of_data (df : MarmotFile) (pre b post : List Byte) (hopen : df.closed = false)
    (hdata : df.data = pre ++ b ++ post) : df.ReadAt b.length pre.length = .ok b := by
  unfold MarmotFile.ReadAt
  rw [hopen, hdata]
  simp

/-- The header of a record that declares a key or a value is rejected by `Decode` when it is
handed over alone: the buffer has 10 bytes and the declared total is larger. -/
theorem Decode_header_alone (ks vs : Nat) (m : Uint16) (hks : ks < 2 ^ 32) (hvs : vs < 2 ^ 32)
    (hne : 0 < ks + vs) (hsz : entryHeaderSize + ks + vs < 2 ^ 32) :
    Decode (PutUint32 ks ++ PutUint32 vs ++ PutUint16 m) = .error .invalidBufferLength := by
  have h1 : (PutUint32 ks ++ PutUint32 vs ++ PutUint16 m).take 4 = PutUint32 ks := by
    simp [PutUint32]
  have h2 : ((PutUint32 ks ++ PutUint32 vs ++ PutUint16 m).drop 4).take 4 = PutUint32 vs := by
    simp [PutUint32]
  have h3 : (PutUint32 ks ++ PutUint32 vs ++ PutUint16 m).length = 10 := rfl
  unfold entryHeaderSize at hsz
  unfold Decode
  rw [h1, h2, h3, Uint32_PutUint32 _ hks, Uint32_PutUint32 _ hvs]
  simp only [entryHeaderSize]
  rw [Nat.mod_eq_of_lt hsz, if_neg (by omega), if_pos (by omega)]

/-- The defect behind the failures of `Get`, `Merge` and the index replay: `Read` hands the
10-byte header alone to `Decode`, which accepts a buffer only when it holds the whole record.
Every record with a non-empty key or value is therefore rejected. -/
theorem Read_rejects_record (df : MarmotFile) (e : Entry) (pre post : List Byte)
    (hopen : df.closed = false) (hdata : df.data = pre ++ e.Encode ++ post)
    (hne : 0 < e.Key.length + e.Value.length)
    (hsz : entryHeaderSize + e.Key.length + e.Value.length < 2 ^ 32) :
    df.Read pre.length = .error .invalidBufferLength := by
  have hsz2 := hsz
  unfold entryHeaderSize at hsz2
  have hk : e.Key.length % 2 ^ 32 = e.Key.length := Nat.mod_eq_of_lt (by omega)
  have hv : e.Value.length % 2 ^ 32 = e.Value.length := Nat.mod_eq_of_lt (by omega)
  have hd : df.data = pre ++ (PutUint32 e.Key.length ++ PutUint32 e.Value.length
      ++ PutUint16 e.Mark) ++ (e.Key ++ e.Value ++ post) := by
    rw [hdata]; simp only [Entry.Encode, hk, hv, List.append_assoc]
  have hr := ReadAt_of_data df pre _ _ hopen hd
  have hl : (PutUint32 e.Key.length ++ PutUint32 e.Value.length ++ PutUint16 e.Mark).length
      = entryHeaderSize := rfl
  rw [hl] at hr
  unfold MarmotFile.Read
  rw [hr]
  simp only
  rw [Decode_header_alone _ _ _ (by omega) (by omega) hne hsz]

/-- The records `Read` does return are those with an empty key and an empty value, whose
encoding is the header alone. -/
theorem Read_empty_record (df : MarmotFile) (e : Entry) (pre post : List Byte)
    (hk : e.Key = []) (hv : e.Value = [])
    (hopen : df.closed = false) (hdata : df.data = pre ++ e.Encode ++ post) :
    df.Read pre.length = .ok e := by
  have hr := ReadAt_of_data df pre _ post hopen hdata
  have hl : e.Encode.length = entryHeaderSize := by
    rw [Encode_length, Entry.GetSize, hk, hv]; rfl
  rw [hl] at hr
  have hdec : Decode e.Encode = .ok e :=
    Decode_Encode_of_small e (by rw [hk, hv]; decide)
  unfold MarmotFile.Read
  rw [hr]
  simp only
  rw [hdec]
  simp only [hk, hv, List.length_nil, gt_iff_lt, Nat.lt_irrefl, if_false]
  cases e
  simp_all

/-- On a handle whose file position is at the tail recorded in `Offset`, and that tail is the
end of the file, `Write` appends the encoding and moves the tail by its size. This is the
case of a file created by the handle itself. -/
theorem Write_appends_at_tail (df : MarmotFile) (e : Entry) (hopen : df.closed = false)
    (hpos : df.pos = df.Offset) (hlen : df.Offset = df.data.length) :
    df.Write e = .done { df with data := df.data ++ e.Encode
                                 pos := df.Offset + e.GetSize
                                 Offset := df.Offset + e.GetSize } none := by
  unfold MarmotFile.Write
  simp [hopen, hpos, hlen, writeAt, Encode_length]

/-! ## The engine: lemmas -/

theorem Open_empty : Open [] = .ok freshStore := rfl

theorem Read_ok_bound (df : MarmotFile) (offset : Nat) (e : Entry) (h : df.Read offset = .ok e) :
    offset + entryHeaderSize ≤ df.data.length := by
  unfold MarmotFile.Read at h
  by_cases hr : offset + entryHeaderSize ≤ df.data.length
  · exact hr
  · exfalso
    unfold MarmotFile.ReadAt at h
    by_cases hc : df.closed = true
    · simp [hc] at h
    · simp [hc, hr] at h

/-- The bound on the iterations of the replay loop is never reached. -/
theorem loadIndexesLoop_fuel_enough (df : MarmotFile) (fuel offset : Nat) (idx : Index)
    (hpos : 0 < fuel) (h : df.data.length < offset + fuel) :
    loadIndexesLoop df fuel offset idx ≠ none := by
  induction fuel generalizing offset idx with
  | zero => omega
  | succ n ih =>
    unfold loadIndexesLoop
    cases hr : df.Read offset with
    | panic p => simp
    | error err => by_cases he : err = .EOF <;> simp [he]
    | ok e =>
      have hb := Read_ok_bound df offset e hr
      simp only
      unfold entryHeaderSize at hb
      apply ih
      · omega
      · simp only [Entry.GetSize, entryHeaderSize]; omega

/-- The replay started by `loadIndexesFromFile` ends within its bound. -/
theorem loadIndexesFromFile_fuel (db : MarmotKV) :
    loadIndexesLoop db.marmotFile (db.marmotFile.data.length + 1) 0 db.indexes ≠ none :=
  loadIndexesLoop_fuel_enough _ _ _ _ (Nat.succ_pos _) (by omega)

theorem Write_of_open (df : MarmotFile) (e : Entry) (hopen : df.closed = false) :
    ∃ mf, df.Write e = .done mf none ∧ mf.closed = false ∧ mf.Offset = df.Offset + e.GetSize := by
  unfold MarmotFile.Write
  simp [hopen]

theorem Put_of_open (db : MarmotKV) (key value : List Byte) (hopen : db.marmotFile.closed = false) :
    ∃ db1, Put db key value = .done db1 none ∧ db1.marmotFile.closed = false := by
  unfold Put
  by_cases hk : key.length = 0
  · simp [hk, hopen]
  · obtain ⟨mf, hw, hc, _⟩ := Write_of_open db.marmotFile (NewEntry key value PUT) hopen
    simp [hk, hw, hc]

theorem Del_of_open (db : MarmotKV) (key : List Byte) (hopen : db.marmotFile.closed = false) :
    ∃ db1, Del db key = .done db1 none ∧ db1.marmotFile.closed = false := by
  unfold Del
  by_cases hk : key.length = 0
  · simp [hk, hopen]
  · cases hi : db.indexes key with
    | none => simp [hk, hopen]
    | some off =>
      obtain ⟨mf, hw, hc, _⟩ := Write_of_open db.marmotFile (NewEntry key [] DEL) hopen
      simp [hk, hw, hc]

/-- On an open handle every sequence of `Put` and `Del` calls runs to its end without error
or panic, and leaves the handle open. -/
theorem runOps_of_open (db : MarmotKV) (ops : List Op) (hopen : db.marmotFile.closed = false) :
    ∃ db1, runOps db ops = .done db1 none ∧ db1.marmotFile.closed = false := by
  induction ops generalizing db with
  | nil => exact ⟨db, rfl, hopen⟩
  | cons op ops ih =>
    unfold runOps
    cases op with
    | put key value =>
      obtain ⟨db1, h1, hc⟩ := Put_of_open db key value hopen
      simp only [Op.apply, h1]
      exact ih db1 hc
    | del key =>
      obtain ⟨db1, h1, hc⟩ := Del_of_open db key hopen
      simp only [Op.apply, h1]
      exact ih db1 hc

theorem writeBatchLoop_marmotFile (db : MarmotKV) (mf : MarmotFile) (writeOff : Nat)
    (batch : List Entry) (db1 : MarmotKV) (mf1 : MarmotFile) (err : Option GoError)
    (h : writeBatchLoop db mf writeOff batch = .done (db1, mf1) err) :
    db1.marmotFile = db.marmotFile := by
  induction batch generalizing db mf writeOff with
  | nil =>
    simp only [writeBatchLoop, Outcome.done.injEq, Prod.mk.injEq] at h
    rw [← h.1.1]
  | cons entry rest ih =>
    unfold writeBatchLoop at h
    cases hw : mf.Write entry with
    | panic p => simp [hw] at h
    | done mf2 e2 =>
      cases e2 with
      | some e3 =>
        simp only [hw, Outcome.done.injEq, Prod.mk.injEq] at h
        rw [← h.1.1]
      | none =>
        simp only [hw] at h
        exact ih { indexes := db.indexes.set entry.Key writeOff, marmotFile := db.marmotFile }
          _ _ h

/-- The bound on the iterations of the scan of `Merge` is never reached. -/
theorem mergeLoop_fuel_enough (fuel : Nat) (db : MarmotKV) (mf : MarmotFile) (offset : Nat)
    (batch : List Entry) (hpos : 0 < fuel) (h : db.marmotFile.data.length < offset + fuel) :
    mergeLoop fuel db mf offset batch ≠ none := by
  induction fuel generalizing db mf offset batch with
  | zero => omega
  | succ n ih =>
    unfold mergeLoop
    cases hr : db.marmotFile.Read offset with
    | panic p => simp
    | error err => by_cases he : err = .EOF <;> simp [he]
    | ok e =>
      have hb := Read_ok_bound db.marmotFile offset e hr
      unfold entryHeaderSize at hb
      have hsz : 10 ≤ e.GetSize := by simp only [Entry.GetSize, entryHeaderSize]; omega
      simp only
      split_ifs with h1 h2
      · cases hwb : writeBatch db mf (batch ++ [e]) with
        | panic p => simp
        | done s err =>
          obtain ⟨db1, mf1⟩ := s
          have hfile := writeBatchLoop_marmotFile _ _ _ _ _ _ _ hwb
          cases err with
          | some e3 => simp
          | none =>
            simp only
            apply ih
            · omega
            · rw [hfile]; omega
      · apply ih
        · omega
        · omega
      · apply ih
        · omega
        · omega

/-- The scan started by `Merge` ends within its bound. -/
theorem Merge_fuel (db : MarmotKV) (mf : MarmotFile) :
    mergeLoop (db.marmotFile.data.length + 1) db mf 0 [] ≠ none :=
  mergeLoop_fuel_enough _ _ _ _ _ (Nat.succ_pos _) (by omega)

/-! ## The engine on a log it wrote itself -/

theorem Put_of_atTail (db : MarmotKV) (k v : List Byte) (hk : k ≠ [])
    (ht : db.marmotFile.AtTail) :
    Put db k v = .done
      { indexes := db.indexes.set k db.marmotFile.Offset
        marmotFile := { db.marmotFile with
          data := db.marmotFile.data ++ (NewEntry k v PUT).Encode
          pos := db.marmotFile.Offset + (NewEntry k v PUT).GetSize
          Offset := db.marmotFile.Offset + (NewEntry k v PUT).GetSize } } none := by
  have hlen : k.length ≠ 0 := fun h => hk (List.length_eq_zero.mp h)
  unfold Put
  rw [if_neg hlen]
  simp only
  rw [Write_appends_at_tail _ _ ht.1 ht.2.1 ht.2.2]

theorem Del_of_atTail (db : MarmotKV) (k : List Byte) (off : Nat) (hk : k ≠ [])
    (hi : db.indexes k = some off) (ht : db.marmotFile.AtTail) :
    Del db k = .done
      { indexes := db.indexes.delete k
        marmotFile := { db.marmotFile with
          data := db.marmotFile.data ++ (NewEntry k [] DEL).Encode
          pos := db.marmotFile.Offset + (NewEntry k [] DEL).GetSize
          Offset := db.marmotFile.Offset + (NewEntry k [] DEL).GetSize } } none := by
  have hlen : k.length ≠ 0 := fun h => hk (List.length_eq_zero.mp h)
  unfold Del
  rw [if_neg hlen, hi]
  simp only
  rw [Write_appends_at_tail _ _ ht.1 ht.2.1 ht.2.2]

theorem StartsWithRecord_append (data : List Byte) (e : Entry) (hd : StartsWithRecord data)
    (hne : 0 < e.Key.length + e.Value.length)
    (hsz : entryHeaderSize + e.Key.length + e.Value.length < 2 ^ 32) :
    StartsWithRecord (data ++ e.Encode) := by
  rcases hd with hnil | ⟨e0, post, hdata, h0, h1⟩
  · exact Or.inr ⟨e, [], by simp [hnil], hne, hsz⟩
  · exact Or.inr ⟨e0, post ++ e.Encode, by simp [hdata], h0, h1⟩

/-- One call keeps the engine on a log it wrote itself. -/
theorem Op_apply_inv (db : MarmotKV) (op : Op) (hsz : op.recordSize < 2 ^ 32)
    (ht : db.marmotFile.AtTail) (hd : StartsWithRecord db.marmotFile.data) :
    ∃ db1, op.apply db = .done db1 none ∧ db1.marmotFile.AtTail ∧
      StartsWithRecord db1.marmotFile.data := by
  cases op with
  | put k v =>
    by_cases hk : k = []
    · exact ⟨db, by simp [Op.apply, Put, hk], ht, hd⟩
    · have hpos : 0 < k.length := List.length_pos.mpr hk
      refine ⟨_, Put_of_atTail db k v hk ht, ⟨ht.1, rfl, ?_⟩, ?_⟩
      · simp only [List.length_append, Encode_length]
        rw [ht.2.2]
      · apply StartsWithRecord_append _ _ hd
        · simp only [NewEntry]; omega
        · simpa [Op.recordSize, Entry.GetSize, NewEntry] using hsz
  | del k =>
    by_cases hk : k = []
    · exact ⟨db, by simp [Op.apply, Del, hk], ht, hd⟩
    · have hpos : 0 < k.length := List.length_pos.mpr hk
      cases hi : db.indexes k with
      | none =>
        have hlen : k.length ≠ 0 := by omega
        exact ⟨db, by simp [Op.apply, Del, hlen, hi], ht, hd⟩
      | some off =>
        refine ⟨_, Del_of_atTail db k off hk hi ht, ⟨ht.1, rfl, ?_⟩, ?_⟩
        · simp only [List.length_append, Encode_length]
          rw [ht.2.2]
        · apply StartsWithRecord_append _ _ hd
          · simp only [NewEntry]; omega
          · simpa [Op.recordSize, Entry.GetSize, NewEntry] using hsz

/-- Every sequence of `Put` and `Del` calls whose records fit the 32-bit length fields runs to
its end and keeps the engine on a log it wrote itself. -/
theorem runOps_inv (db : MarmotKV) (ops : List Op) (hsz : ∀ op ∈ ops, op.recordSize < 2 ^ 32)
    (ht : db.marmotFile.AtTail) (hd : StartsWithRecord db.marmotFile.data) :
    ∃ db1, runOps db ops = .done db1 none ∧ db1.marmotFile.AtTail ∧
      StartsWithRecord db1.marmotFile.data := by
  induction ops generalizing db with
  | nil => exact ⟨db, rfl, ht, hd⟩
  | cons op ops ih =>
    obtain ⟨db1, h1, ht1, hd1⟩ := Op_apply_inv db op (hsz op (List.mem_cons_self _ _)) ht hd
    obtain ⟨db2, h2, ht2, hd2⟩ := ih db1 (fun o ho => hsz o (List.mem_cons_of_mem _ ho)) ht1 hd1
    refine ⟨db2, ?_, ht2, hd2⟩
    unfold runOps
    rw [h1]
    exact h2

theorem freshStore_atTail : freshStore.marmotFile.AtTail := ⟨rfl, rfl, rfl⟩

theorem freshStore_startsWithRecord : StartsWithRecord freshStore.marmotFile.data := Or.inl rfl

/-- The first `Read` of a scan fails on every non-empty log that starts with a record with a
non-empty key or value. -/
theorem Read_zero_fails (df : MarmotFile) (hopen : df.closed = false)
    (hd : StartsWithRecord df.data) (hne : df.data ≠ []) :
    df.Read 0 = .error .invalidBufferLength := by
  rcases hd with hnil | ⟨e, post, hdata, h0, h1⟩
  · exact absurd hnil hne
  · exact Read_rejects_record df e [] post hopen (by simpa using hdata) h0 h1

/-- On a log the engine wrote itself, `Get` fails right after `Put` for every non-empty key
whose record fits the 32-bit length fields: the read of the record just written is rejected. -/
theorem Get_after_Put_fails (db : MarmotKV) (k v : List Byte) (hk : k ≠ [])
    (hsz : entryHeaderSize + k.length + v.length < 2 ^ 32) (ht : db.marmotFile.AtTail) :
    ∃ db1, Put db k v = .done db1 none ∧ Get db1 k = .error .invalidBufferLength := by
  have hlen : k.length ≠ 0 := fun h => hk (List.length_eq_zero.mp h)
  have hpos : 0 < k.length := List.length_pos.mpr hk
  refine ⟨_, Put_of_atTail db k v hk ht, ?_⟩
  have hr := Read_rejects_record
    { db.marmotFile with
      data := db.marmotFile.data ++ (NewEntry k v PUT).Encode
      pos := db.marmotFile.Offset + (NewEntry k v PUT).GetSize
      Offset := db.marmotFile.Offset + (NewEntry k v PUT).GetSize }
    (NewEntry k v PUT) db.marmotFile.data [] ht.1 (by simp)
    (by simp only [NewEntry]; omega) (by simpa [NewEntry] using hsz)
  rw [← ht.2.2] at hr
  simp [Get, hlen, Index.set, hr]

/-- On a log the engine wrote itself and that is not empty, `Merge` gives up with
"error reading entry" and leaves the engine as it was. -/
theorem Merge_fails_of_nonempty (db : MarmotKV) (mergeContent : List Byte)
    (ht : db.marmotFile.AtTail)
    (hd : StartsWithRecord db.marmotFile.data) (hne : db.marmotFile.data ≠ []) :
    Merge db mergeContent = .done db (some .errorReadingEntry) := by
  have hoff : db.marmotFile.Offset ≠ 0 := by
    rw [ht.2.2]
    exact fun h => hne (List.length_eq_zero.mp h)
  have hr := Read_zero_fails db.marmotFile ht.1 hd hne
  unfold Merge
  rw [if_neg hoff]
  simp [mergeLoop, hr]

/-- On a non-empty log that starts with a record with a non-empty key or value, `Open` builds
an empty index: the replay returns at the first record. -/
theorem Open_of_nonempty (data : List Byte) (hd : StartsWithRecord data) (hne : data ≠ []) :
    Open data = .ok (newMarmotKV (NewMarmotFile data)) := by
  have hr := Read_zero_fails (NewMarmotFile data) rfl hd hne
  have hf : (newMarmotKV (NewMarmotFile data)).marmotFile = NewMarmotFile data := rfl
  unfold Open loadIndexesFromFile
  rw [hf]
  simp only [loadIndexesLoop, hr]
  rfl

/-- After every sequence of `Put` and `Del` calls on the engine opened on an empty directory
(records fitting the 32-bit length fields), `Merge` fails unless the log is still empty,
whatever the merge file holds. -/
theorem Merge_fails_on_written_store (ops : List Op)
    (hsz : ∀ op ∈ ops, op.recordSize < 2 ^ 32) :
    ∃ db, runOps freshStore ops = .done db none ∧
      (db.marmotFile.data ≠ [] →
        ∀ mergeContent, Merge db mergeContent = .done db (some .errorReadingEntry)) := by
  obtain ⟨db, h, ht, hd⟩ :=
    runOps_inv freshStore ops hsz freshStore_atTail freshStore_startsWithRecord
  exact ⟨db, h, fun hne mergeContent => Merge_fails_of_nonempty db mergeContent ht hd hne⟩

/-- After every sequence of `Put` and `Del` calls on the engine opened on an empty directory
(records fitting the 32-bit length fields), `Close` and `Open` give an engine with an empty
index. -/
theorem reopen_forgets_index (ops : List Op) (hsz : ∀ op ∈ ops, op.recordSize < 2 ^ 32) :
    ∃ db db1, runOps freshStore ops = .done db none ∧ reopen db = .ok db1 ∧
      ∀ k, db1.indexes k = none := by
  obtain ⟨db, h, ht, hd⟩ :=
    runOps_inv freshStore ops hsz freshStore_atTail freshStore_startsWithRecord
  have hc : Close db = .done { db with marmotFile := { db.marmotFile with closed := true } }
      none := by
    simp [Close, MarmotFile.Close, ht.1]
  by_cases hne : db.marmotFile.data = []
  · refine ⟨db, freshStore, h, ?_, fun _ => rfl⟩
    unfold reopen
    rw [hc]
    simp only [hne]
    rfl
  · refine ⟨db, newMarmotKV (NewMarmotFile db.marmotFile.data), h, ?_, fun _ => rfl⟩
    unfold reopen
    rw [hc]
    exact Open_of_nonempty _ hd hne

/-! ## The record layout: lemmas -/

theorem bigEndianValue_append_singleton (b : List Byte) (x : Byte) :
    bigEndianValue (b ++ [x]) = bigEndianValue b * 256 + x.val := by
  simp [bigEndianValue]

/-- A spec field of `w` bytes stands for the number it was built from, modulo `256 ^ w`; so it
stands for the number itself when that number fits the field. -/
theorem bigEndianValue_specBigEndian (w n : Nat) :
    bigEndianValue (specBigEndian w n) = n % 256 ^ w := by
  induction w generalizing n with
  | zero => simp [specBigEndian, bigEndianValue, Nat.mod_one]
  | succ w ih =>
    rw [specBigEndian, bigEndianValue_append_singleton, ih, pow_succ, Nat.mul_comm (256 ^ w) 256,
      Nat.mod_mul]
    simp only [toByte]
    omega

theorem PutUint32_eq_spec (n : Nat) : PutUint32 (n % 2 ^ 32) = specBigEndian 4 n := by
  simp only [PutUint32, specBigEndian, toByte, List.nil_append, List.cons_append,
    List.cons.injEq, Fin.mk.injEq, and_true]
  omega

theorem PutUint16_eq_spec (m : Uint16) : PutUint16 m = specBigEndian 2 m.val := by
  have := m.isLt
  simp only [PutUint16, specBigEndian, toByte, List.nil_append, List.cons_append,
    List.cons.injEq, Fin.mk.injEq, and_true]
  omega

theorem PutUint32_Uint32 (b : List Byte) (h : b.length = 4) : PutUint32 (Uint32 b) = b := by
  match b, h with
  | [b0, b1, b2, b3], _ =>
    have := b0.isLt; have := b1.isLt; have := b2.isLt; have := b3.isLt
    simp only [PutUint32, Uint32, toByte, List.cons.injEq, and_true]
    refine ⟨?_, ?_, ?_, ?_⟩ <;> apply Fin.ext <;> simp only <;> omega

theorem PutUint16_ofBytes (b : List Byte) (h : b.length = 2) :
    PutUint16 (Uint16.ofBytes b) = b := by
  match b, h with
  | [b0, b1], _ =>
    have := b0.isLt; have := b1.isLt
    simp only [PutUint16, Uint16.ofBytes, toByte, List.cons.injEq, and_true]
    refine ⟨?_, ?_⟩ <;> apply Fin.ext <;> simp only <;> omega

/-- What an accepted buffer looks like: its length is the header size plus the two declared
lengths, and the entry holds the tag of the header, the declared number of key bytes after
the header and the value bytes after them. -/
theorem Decode_ok_fields (buf : List Byte) (e : Entry) (h : Decode buf = .ok e) :
    buf.length = 10 + Uint32 (buf.take 4) + Uint32 ((buf.drop 4).take 4) ∧
    e.Key = (buf.drop 10).take (Uint32 (buf.take 4)) ∧
    e.Value = (buf.drop (10 + Uint32 (buf.take 4))).take (Uint32 ((buf.drop 4).take 4)) ∧
    e.Mark = Uint16.ofBytes ((buf.drop 8).take 2) := by
  have hk := Uint32_lt (buf.take 4)
  have hv := Uint32_lt ((buf.drop 4).take 4)
  revert h
  unfold Decode sliceExpr
  simp only [entryHeaderSize]
  split_ifs with c1 c2 c3 c4
  · simp
  · simp
  · have h1 : (10 + Uint32 (buf.take 4)) % 2 ^ 32 = 10 + Uint32 (buf.take 4) := by omega
    have h2 : (10 + Uint32 (buf.take 4) + Uint32 ((buf.drop 4).take 4)) % 2 ^ 32
        = 10 + Uint32 (buf.take 4) + Uint32 ((buf.drop 4).take 4) := by omega
    intro h
    simp only [Res.ok.injEq] at h
    subst h
    simp only [h1, h2]
    refine ⟨by omega, ?_, ?_, trivial⟩
    · rw [Nat.add_sub_cancel_left]
    · rw [Nat.add_sub_cancel_left]
  all_goals simp

/-- Re-encoding an entry returned by `Decode` gives back the buffer. -/
theorem Decode_ok_Encode (buf : List Byte) (e : Entry) (h : Decode buf = .ok e) :
    e.Encode = buf := by
  obtain ⟨hlen, hK, hV, hM⟩ := Decode_ok_fields buf e h
  have hk := Uint32_lt (buf.take 4)
  have hv := Uint32_lt ((buf.drop 4).take 4)
  have hKl : e.Key.length = Uint32 (buf.take 4) := by
    rw [hK, List.length_take, List.length_drop]; omega
  have hVl : e.Value.length = Uint32 ((buf.drop 4).take 4) := by
    rw [hV, List.length_take, List.length_drop]; omega
  have h4 : (buf.take 4).length = 4 := by rw [List.length_take]; omega
  have h44 : ((buf.drop 4).take 4).length = 4 := by
    rw [List.length_take, List.length_drop]; omega
  have h82 : ((buf.drop 8).take 2).length = 2 := by
    rw [List.length_take, List.length_drop]; omega
  unfold Entry.Encode
  simp only
  rw [hKl, hVl, Nat.mod_eq_of_lt hk, Nat.mod_eq_of_lt hv, PutUint32_Uint32 _ h4,
    PutUint32_Uint32 _ h44, hM, PutUint16_ofBytes _ h82, hK, hV]
  rw [← List.take_add, ← List.take_add, ← List.take_add, ← List.take_add]
  apply List.take_of_length_le
  omega

/-! ## What `Read` can return -/

theorem ReadAt_ok (df : MarmotFile) (n off : Nat) (buf : List Byte)
    (h : df.ReadAt n off = .ok buf) :
    df.closed = false ∧ off + n ≤ df.data.length ∧ buf = (df.data.drop off).take n := by
  unfold MarmotFile.ReadAt at h
  split_ifs at h with hc hl
  · simp only [Res.ok.injEq] at h
    exact ⟨by simpa using hc, hl, h.symm⟩

theorem Read_closed (df : MarmotFile) (offset : Nat) (h : df.closed = true) :
    df.Read offset = .error .ErrClosed := by
  simp [MarmotFile.Read, MarmotFile.ReadAt, h]

/-- Because `Read` hands the header alone to `Decode`, the only entries it returns have an
empty key and an empty value, and the file holds their 10-byte encoding at the offset. -/
theorem Read_ok_empty (df : MarmotFile) (offset : Nat) (e : Entry)
    (h : df.Read offset = .ok e) :
    e.Key = [] ∧ e.Value = [] ∧ df.closed = false ∧
      offset + entryHeaderSize ≤ df.data.length ∧
      (df.data.drop offset).take entryHeaderSize = e.Encode := by
  unfold MarmotFile.Read at h
  cases hr : df.ReadAt entryHeaderSize offset with
  | error err => rw [hr] at h; exact Res.noConfusion h
  | panic p => rw [hr] at h; exact Res.noConfusion h
  | ok buf =>
    obtain ⟨hopen, hle, hbuf⟩ := ReadAt_ok df _ _ buf hr
    have hbl : buf.length = 10 := by
      rw [hbuf, List.length_take, List.length_drop]
      unfold entryHeaderSize at hle ⊢
      omega
    rw [hr] at h
    simp only at h
    cases hd : Decode buf with
    | error err => rw [hd] at h; exact Res.noConfusion h
    | panic p => rw [hd] at h; exact Res.noConfusion h
    | ok e0 =>
      obtain ⟨hlen, hK, hV, _⟩ := Decode_ok_fields buf e0 hd
      have hks : Uint32 (buf.take 4) = 0 := by omega
      have hvs : Uint32 ((buf.drop 4).take 4) = 0 := by omega
      have hK0 : e0.Key = [] := by rw [hK, hks]; rfl
      have hV0 : e0.Value = [] := by rw [hV, hvs]; rfl
      rw [hd] at h
      simp only [hK0, hV0, List.length_nil, gt_iff_lt, Nat.lt_irrefl, if_false,
        Res.ok.injEq] at h
      have he : e = e0 := by
        rw [← h]
        clear h hd hK hV hlen
        cases e0 with
        | mk K V M =>
          simp only at hK0 hV0
          rw [hK0, hV0]
      subst he
      refine ⟨hK0, hV0, hopen, hle, ?_⟩
      rw [← hbuf]
      exact (Decode_ok_Encode buf e hd).symm

/-! ## What the scan of `Merge` can do -/

theorem BatchInv_mono (idx : Index) (o o1 : Nat) (batch : List Entry) (h : BatchInv idx o batch)
    (hle : o ≤ o1) : BatchInv idx o1 batch := by
  rcases h with h | ⟨h1, o2, h2, h3⟩
  · exact Or.inl h
  · exact Or.inr ⟨h1, o2, h2, by omega⟩

theorem BatchInv_length (idx : Index) (o : Nat) (batch : List Entry) (h : BatchInv idx o batch) :
    batch.length ≤ 1 := by
  rcases h with h | ⟨h1, _⟩
  · simp [h]
  · omega

/-- The scan never fills a batch: the entries it can read all have the empty key, and the
index points at one of them at most. So it ends with the engine and the merge file untouched
and at most one pending entry; when it ends without error the data file is open. -/
theorem mergeLoop_scan (fuel : Nat) (db : MarmotKV) (mf : MarmotFile) (offset : Nat)
    (batch : List Entry) (db2 : MarmotKV) (mf2 : MarmotFile) (b2 : List Entry)
    (err : Option GoError) (hinv : BatchInv db.indexes offset batch)
    (hb : ∀ e ∈ batch, e.Key = [] ∧ e.Value = [])
    (h : mergeLoop fuel db mf offset batch = some (.done (db2, mf2, b2) err)) :
    db2 = db ∧ mf2 = mf ∧ b2.length ≤ 1 ∧ (∀ e ∈ b2, e.Key = [] ∧ e.Value = []) ∧
      (err = none → db.marmotFile.closed = false) := by
  induction fuel generalizing offset batch with
  | zero => simp [mergeLoop] at h
  | succ n ih =>
    unfold mergeLoop at h
    cases hr : db.marmotFile.Read offset with
    | panic p => simp [hr] at h
    | error e1 =>
      rw [hr] at h
      simp only at h
      have hopen : e1 = .EOF → db.marmotFile.closed = false := by
        intro he
        by_contra hc
        have hc1 : db.marmotFile.closed = true := by simpa using hc
        rw [Read_closed _ _ hc1] at hr
        rw [he] at hr
        exact absurd hr (by decide)
      split_ifs at h with he
      · simp only [Option.some.injEq, Outcome.done.injEq, Prod.mk.injEq] at h
        obtain ⟨⟨h1, h2, h3⟩, h4⟩ := h
        subst h1 h2 h3
        exact ⟨rfl, rfl, BatchInv_length _ _ _ hinv, hb, fun _ => hopen he⟩
      · simp only [Option.some.injEq, Outcome.done.injEq, Prod.mk.injEq] at h
        obtain ⟨⟨h1, h2, h3⟩, h4⟩ := h
        subst h1 h2 h3
        exact ⟨rfl, rfl, BatchInv_length _ _ _ hinv, hb,
          fun hn => by rw [← h4] at hn; exact Option.noConfusion hn⟩
    | ok e =>
      rw [hr] at h
      simp only at h
      obtain ⟨hK, hV, _, _, _⟩ := Read_ok_empty _ _ _ hr
      have hsz : offset < offset + e.GetSize := by
        simp only [Entry.GetSize, entryHeaderSize]; omega
      by_cases hlive : db.indexes e.Key = some offset
      · have hbatch : batch = [] := by
          rcases hinv with h0 | ⟨_, o2, h2, h3⟩
          · exact h0
          · rw [hK] at hlive
            rw [hlive] at h2
            simp only [Option.some.injEq] at h2
            omega
        subst hbatch
        rw [if_pos hlive] at h
        simp only [List.nil_append, List.length_singleton] at h
        rw [if_neg (by decide)] at h
        refine ih (offset + e.GetSize) [e] ?_ ?_ h
        · exact Or.inr ⟨rfl, offset, by rw [← hK]; exact hlive, hsz⟩
        · intro e1 he1
          simp only [List.mem_singleton] at he1
          subst he1
          exact ⟨hK, hV⟩
      · rw [if_neg hlive] at h
        exact ih (offset + e.GetSize) batch (BatchInv_mono _ _ _ _ hinv (by omega)) hb h

theorem mergeSwap_of_open (db : MarmotKV) (mf : MarmotFile)
    (hopen : db.marmotFile.closed = false) :
    mergeSwap db mf = .done
      { db with marmotFile := if db.marmotFile.name = .MergeFileName
                              then { mf with closed := true } else mf } none := by
  simp [mergeSwap, MarmotFile.Close, hopen]

/-- The ways `Merge` can return. Either it leaves the engine as it was, returning nil only on a
tail offset of 0; or it returns nil after a scan that ran to the end of an open data file with
at most one pending entry, of empty key and value. The new data file is then the merge file
with that entry written at its start, and the entry is indexed at the size the merge file had
when the call started. -/
theorem Merge_done_cases (db db1 : MarmotKV) (c : List Byte) (err : Option GoError)
    (h : Merge db c = .done db1 err) :
    (db1 = db ∧ (err = none → db.marmotFile.Offset = 0)) ∨
    (err = none ∧ db.marmotFile.Offset ≠ 0 ∧ db.marmotFile.closed = false ∧
      ∃ batch, batch.length ≤ 1 ∧ (∀ e ∈ batch, e.Key = [] ∧ e.Value = []) ∧
        mergeLoop (db.marmotFile.data.length + 1) db (NewMergeMarmotFile c) 0 [] =
          some (.done (db, NewMergeMarmotFile c, batch) none) ∧
        db1.marmotFile.data = writeAt c 0 (encodeAll batch) ∧
        db1.marmotFile.Offset = c.length + (encodeAll batch).length ∧
        db1.indexes = (if batch = [] then db.indexes else db.indexes.set [] c.length)) := by
  unfold Merge at h
  split_ifs at h with hoff
  · simp only [Outcome.done.injEq] at h
    exact Or.inl ⟨h.1.symm, fun _ => hoff⟩
  · simp only at h
    cases hm : mergeLoop (db.marmotFile.data.length + 1) db (NewMergeMarmotFile c) 0 [] with
    | none => exact absurd hm (Merge_fuel db _)
    | some r =>
      cases r with
      | panic p => simp [hm] at h
      | done s e1 =>
        obtain ⟨dbx, mfx, b⟩ := s
        obtain ⟨h1, h2, hlen, hb, hopen⟩ :=
          mergeLoop_scan _ _ _ _ _ _ _ _ _ (Or.inl rfl) (by simp) hm
        subst h1 h2
        rw [hm] at h
        cases e1 with
        | some e2 =>
          simp only [Outcome.done.injEq] at h
          refine Or.inl ⟨h.1.symm, fun hn => ?_⟩
          rw [← h.2] at hn
          exact Option.noConfusion hn
        | none =>
          have hop := hopen rfl
          simp only at h
          refine Or.inr ?_
          match b, hlen, hb with
          | [], _, _ =>
            simp only [List.length_nil, gt_iff_lt, Nat.lt_irrefl, if_false] at h
            rw [mergeSwap_of_open _ _ hop] at h
            simp only [Outcome.done.injEq] at h
            obtain ⟨h1, h2⟩ := h
            subst h1
            refine ⟨h2.symm, hoff, hop, [], by simp, by simp, rfl, ?_, ?_, by simp⟩
            · simp only [encodeAll, writeAt, List.take_zero, Nat.zero_sub, List.replicate_zero,
                List.append_nil, List.nil_append, List.length_nil, Nat.add_zero, List.drop_zero]
              split_ifs <;> rfl
            · simp only [encodeAll, List.length_nil, Nat.add_zero]
              split_ifs <;> rfl
          | [e], _, hb1 =>
            obtain ⟨hK, hV⟩ := hb1 e (by simp)
            have hw : writeBatch dbx (NewMergeMarmotFile c) [e] =
                .done ({ dbx with indexes := dbx.indexes.set e.Key c.length },
                  { NewMergeMarmotFile c with data := writeAt c 0 e.Encode
                                              pos := 0 + e.Encode.length
                                              Offset := c.length + e.GetSize }) none := by
              simp [writeBatch, writeBatchLoop, MarmotFile.Write, NewMergeMarmotFile,
                newInternal]
            simp only [List.length_singleton, gt_iff_lt, Nat.lt_one_iff, if_true,
              Nat.zero_lt_one, hw] at h
            rw [mergeSwap_of_open { indexes := dbx.indexes.set e.Key c.length,
                                    marmotFile := dbx.marmotFile } _ hop] at h
            simp only [Outcome.done.injEq] at h
            obtain ⟨h1, h2⟩ := h
            subst h1
            refine ⟨h2.symm, hoff, hop, [e], by simp, hb1, rfl, ?_, ?_, ?_⟩
            · simp only [encodeAll, List.append_nil]
              split_ifs <;> rfl
            · simp only [encodeAll, List.append_nil, Encode_length]
              split_ifs <;> rfl
            · simp [hK]
          | _ :: _ :: _, hl, _ => simp at hl

/-! ## Consequences for `Get`, `Put` and `Del` -/

theorem Get_of_absent (db : MarmotKV) (k : List Byte) (hk : k ≠ []) (h : db.indexes k = none) :
    Get db k = .error .keyDoesNotExist := by
  have hlen : k.length ≠ 0 := fun h0 => hk (List.length_eq_zero.mp h0)
  simp [Get, hlen, h]

theorem Put_Del_absent (db : MarmotKV) (k v : List Byte) (hk : k ≠ [])
    (hopen : db.marmotFile.closed = false) :
    ∃ db1 db2, Put db k v = .done db1 none ∧ Del db1 k = .done db2 none ∧
      db2.indexes k = none := by
  have hlen : k.length ≠ 0 := fun h0 => hk (List.length_eq_zero.mp h0)
  obtain ⟨mf, hw, hc, _⟩ := Write_of_open db.marmotFile (NewEntry k v PUT) hopen
  obtain ⟨mf2, hw2, _, _⟩ := Write_of_open mf (NewEntry k [] DEL) hc
  refine ⟨{ indexes := db.indexes.set k db.marmotFile.Offset, marmotFile := mf },
    { indexes := (db.indexes.set k db.marmotFile.Offset).delete k, marmotFile := mf2 }, ?_, ?_, ?_⟩
  · simp [Put, hlen, hw]
  · simp [Del, hlen, hw2, Index.set]
  · simp [Index.delete]

/-- Whatever `Merge` returns, it leaves the index entries of the non-empty keys as they were. -/
theorem Merge_indexes_of_nonempty_key (db db1 : MarmotKV) (c : List Byte)
    (err : Option GoError) (h : Merge db c = .done db1 err) (k : List Byte) (hk : k ≠ []) :
    db1.indexes k = db.indexes k := by
  rcases Merge_done_cases db db1 c err h with ⟨h1, _⟩ | ⟨_, _, _, batch, _, _, _, _, _, hidx⟩
  · rw [h1]
  · rw [hidx]
    split_ifs
    · rfl
    · simp [Index.set, hk]

/-- No call of `Put` returns an error: `Write` either returns nil or panics. -/
theorem Put_error_nil (db db1 : MarmotKV) (k v : List Byte) (err : Option GoError)
    (h : Put db k v = .done db1 err) : err = none := by
  by_cases hk : k.length = 0
  · simp only [Put, hk, if_true, Outcome.done.injEq] at h
    exact h.2.symm
  · by_cases hc : db.marmotFile.closed = true
    · simp [Put, MarmotFile.Write, hk, hc] at h
    · have hc1 : db.marmotFile.closed = false := by simpa using hc
      obtain ⟨mf, hw, _, _⟩ := Write_of_open db.marmotFile (NewEntry k v PUT) hc1
      simp only [Put, hk, if_false, hw, Outcome.done.injEq] at h
      exact h.2.symm

/-! ## The index invariant on a log the engine wrote itself -/

theorem HoldsPutRecord_append (data b : List Byte) (o : Nat) (k : List Byte)
    (h : HoldsPutRecord data o k) : HoldsPutRecord (data ++ b) o k := by
  obtain ⟨v, post, hd⟩ := h
  have hlt : o ≤ data.length := by
    by_contra hgt
    rw [List.drop_eq_nil_of_le (by omega)] at hd
    have hl := congrArg List.length hd
    simp only [List.length_nil, List.length_append, Encode_length, Entry.GetSize,
      entryHeaderSize] at hl
    omega
  refine ⟨v, post ++ b, ?_⟩
  rw [List.drop_append_of_le_length hlt, hd, List.append_assoc]

theorem HoldsPutRecord_at_tail (data : List Byte) (k v : List Byte) :
    HoldsPutRecord (data ++ (NewEntry k v PUT).Encode) data.length k :=
  ⟨v, [], by simp⟩

/-- One call keeps the index pointing at `Put` records of its keys, on a log the engine wrote
itself. -/
theorem Op_apply_index_inv (db : MarmotKV) (op : Op) (ht : db.marmotFile.AtTail)
    (hi : ∀ k o, db.indexes k = some o → HoldsPutRecord db.marmotFile.data o k) :
    ∃ db1, op.apply db = .done db1 none ∧ db1.marmotFile.AtTail ∧
      ∀ k o, db1.indexes k = some o → HoldsPutRecord db1.marmotFile.data o k := by
  cases op with
  | put k v =>
    by_cases hk : k = []
    · exact ⟨db, by simp [Op.apply, Put, hk], ht, hi⟩
    · refine ⟨_, Put_of_atTail db k v hk ht, ⟨ht.1, rfl, ?_⟩, ?_⟩
      · simp only [List.length_append, Encode_length]
        rw [ht.2.2]
      · intro k1 o h1
        simp only [Index.set] at h1
        split_ifs at h1 with hkk
        · simp only [Option.some.injEq] at h1
          subst hkk
          rw [← h1, ht.2.2]
          exact HoldsPutRecord_at_tail _ _ _
        · exact HoldsPutRecord_append _ _ _ _ (hi k1 o h1)
  | del k =>
    by_cases hk : k = []
    · exact ⟨db, by simp [Op.apply, Del, hk], ht, hi⟩
    · have hlen : k.length ≠ 0 := fun h0 => hk (List.length_eq_zero.mp h0)
      cases hidx : db.indexes k with
      | none => exact ⟨db, by simp [Op.apply, Del, hlen, hidx], ht, hi⟩
      | some off =>
        refine ⟨_, Del_of_atTail db k off hk hidx ht, ⟨ht.1, rfl, ?_⟩, ?_⟩
        · simp only [List.length_append, Encode_length]
          rw [ht.2.2]
        · intro k1 o h1
          simp only [Index.delete] at h1
          split_ifs at h1 with hkk
          exact HoldsPutRecord_append _ _ _ _ (hi k1 o h1)

/-- The part of the index invariant that the code keeps: after every sequence of `Put` and `Del`
calls on the engine opened on an empty directory, every key of the index maps to an offset at
which the log holds a `Put` record of that key. -/
theorem index_invariant_of_fresh (ops : List Op) :
    ∃ db, runOps freshStore ops = .done db none ∧
      ∀ k o, db.indexes k = some o → HoldsPutRecord db.marmotFile.data o k := by
  suffices hgen : ∀ (ops : List Op) (db : MarmotKV), db.marmotFile.AtTail →
      (∀ k o, db.indexes k = some o → HoldsPutRecord db.marmotFile.data o k) →
      ∃ db1, runOps db ops = .done db1 none ∧
        ∀ k o, db1.indexes k = some o → HoldsPutRecord db1.marmotFile.data o k from
    hgen ops freshStore freshStore_atTail (fun k o h => by simp [freshStore, newMarmotKV,
      Index.empty] at h)
  intro ops
  induction ops with
  | nil => exact fun db _ hi => ⟨db, rfl, hi⟩
  | cons op ops ih =>
    intro db ht hi
    obtain ⟨db1, h1, ht1, hi1⟩ := Op_apply_index_inv db op ht hi
    obtain ⟨db2, h2, hi2⟩ := ih db1 ht1 hi1
    refine ⟨db2, ?_, hi2⟩
    unfold runOps
    rw [h1]
    exact h2

/-! ## The output of a successful `Merge` -/

theorem newInternal_tailOk (fileName : Path) (content : List Byte) :
    (newInternal fileName content).TailOk :=
  ⟨Nat.zero_le _, Nat.le_refl _⟩

theorem Write_tailOk (df mf : MarmotFile) (e : Entry) (err : Option GoError)
    (ht : df.TailOk) (h : df.Write e = .done mf err) : mf.TailOk := by
  unfold MarmotFile.Write at h
  split_ifs at h
  simp only [Outcome.done.injEq] at h
  obtain ⟨h1, _⟩ := h
  subst h1
  obtain ⟨hp, hl⟩ := ht
  refine ⟨?_, ?_⟩
  · simp only [Encode_length]; omega
  · simp only [writeAt, List.length_append, List.length_take, List.length_replicate,
      List.length_drop, Encode_length]
    omega

theorem Open_emptyRecordLog : Open emptyRecordLog = .ok storeE := rfl

theorem Merge_storeE : Merge storeE [] = .done mergedE none := rfl

theorem encodeAll_eq_nil (rs : List Entry) (h : encodeAll rs = []) : rs = [] := by
  cases rs with
  | nil => rfl
  | cons r rs =>
    have hl := congrArg List.length h
    simp only [encodeAll, List.length_append, Encode_length, Entry.GetSize, entryHeaderSize,
      List.length_nil] at hl
    omega

theorem encodeAll_liveRecords_length (idx : Index) (o : Nat) (rs : List Entry) :
    (encodeAll (liveRecords idx o rs)).length ≤ (encodeAll rs).length := by
  induction rs generalizing o with
  | nil => simp [liveRecords]
  | cons r rs ih =>
    have := ih (o + r.GetSize)
    unfold liveRecords
    split_ifs
    · simp only [encodeAll, List.length_append]; omega
    · simp only [encodeAll, List.length_append]; omega

/-- A scan that runs over a log of encoded records to its end without error has met only
records with an empty key and an empty value, and its pending batch holds the records the index
points at, in file order. -/
theorem mergeLoop_of_records (rs : List Entry) (fuel : Nat) (db : MarmotKV) (mf : MarmotFile)
    (pre : List Byte) (batch b2 : List Entry)
    (hdata : db.marmotFile.data = pre ++ encodeAll rs)
    (hsz : ∀ r ∈ rs, r.GetSize < 2 ^ 32)
    (hinv : BatchInv db.indexes pre.length batch)
    (h : mergeLoop fuel db mf pre.length batch = some (.done (db, mf, b2) none)) :
    (∀ r ∈ rs, r.Key = [] ∧ r.Value = []) ∧
      b2 = batch ++ liveRecords db.indexes pre.length rs := by
  induction rs generalizing fuel pre batch with
  | nil =>
    cases fuel with
    | zero => simp [mergeLoop] at h
    | succ n =>
      unfold mergeLoop at h
      cases hr : db.marmotFile.Read pre.length with
      | panic p => simp [hr] at h
      | ok e =>
        obtain ⟨_, _, _, hle, _⟩ := Read_ok_empty _ _ _ hr
        rw [hdata] at hle
        simp only [encodeAll, List.append_nil, entryHeaderSize] at hle
        omega
      | error e1 =>
        rw [hr] at h
        simp only at h
        split_ifs at h
        · simp only [Option.some.injEq, Outcome.done.injEq, Prod.mk.injEq, true_and,
            and_true] at h
          exact ⟨by simp, by simp [liveRecords, h]⟩
        · simp at h
  | cons r rs ih =>
    cases fuel with
    | zero => simp [mergeLoop] at h
    | succ n =>
      have hrsz := hsz r (List.mem_cons_self _ _)
      simp only [Entry.GetSize] at hrsz
      have hd2 : db.marmotFile.data = pre ++ r.Encode ++ encodeAll rs := by
        rw [hdata]; simp [encodeAll]
      have hpl : (pre ++ r.Encode).length = pre.length + r.GetSize := by
        rw [List.length_append, Encode_length]
      unfold mergeLoop at h
      by_cases hc : db.marmotFile.closed = true
      · rw [Read_closed _ _ hc] at h
        simp at h
      · have hopen : db.marmotFile.closed = false := by simpa using hc
        by_cases hne : 0 < r.Key.length + r.Value.length
        · rw [Read_rejects_record _ r pre _ hopen hd2 hne hrsz] at h
          simp at h
        · have hK : r.Key = [] := List.length_eq_zero.mp (by omega)
          have hV : r.Value = [] := List.length_eq_zero.mp (by omega)
          rw [Read_empty_record _ r pre _ hK hV hopen hd2] at h
          simp only at h
          have hsz2 : pre.length < pre.length + r.GetSize := by
            simp only [Entry.GetSize, entryHeaderSize]; omega
          by_cases hlive : db.indexes r.Key = some pre.length
          · have hbatch : batch = [] := by
              rcases hinv with h0 | ⟨_, o2, h2, h3⟩
              · exact h0
              · rw [hK] at hlive
                rw [hlive] at h2
                simp only [Option.some.injEq] at h2
                omega
            subst hbatch
            rw [if_pos hlive] at h
            simp only [List.nil_append, List.length_singleton] at h
            rw [if_neg (by decide), ← hpl] at h
            obtain ⟨h1, h2⟩ := ih n (pre ++ r.Encode) [r] hd2
              (fun x hx => hsz x (List.mem_cons_of_mem _ hx))
              (Or.inr ⟨rfl, pre.length, by rw [← hK]; exact hlive, by rw [hpl]; exact hsz2⟩) h
            refine ⟨?_, ?_⟩
            · intro x hx
              rcases List.mem_cons.mp hx with hx1 | hx1
              · rw [hx1]; exact ⟨hK, hV⟩
              · exact h1 x hx1
            · rw [h2, hpl]
              simp [liveRecords, hlive]
          · rw [if_neg hlive, ← hpl] at h
            obtain ⟨h1, h2⟩ := ih n (pre ++ r.Encode) batch hd2
              (fun x hx => hsz x (List.mem_cons_of_mem _ hx))
              (BatchInv_mono _ _ _ _ hinv (by rw [hpl]; omega)) h
            refine ⟨?_, ?_⟩
            · intro x hx
              rcases List.mem_cons.mp hx with hx1 | hx1
              · rw [hx1]; exact ⟨hK, hV⟩
              · exact h1 x hx1
            · rw [h2, hpl]
              simp [liveRecords, hlive]

/-! ## `Get` after `Merge`, and `Merge` without a merge file left behind -/

/-- For every non-empty key `k` and value `v`, after `Put(k, v)` then `Del(k)` on the engine
opened on an empty directory, `Get(k)` returns the key-not-found error, and so it does after a
call of `Merge`, whatever the merge file held and whatever the call returned. -/
theorem Put_Del_Get_fresh (k v : List Byte) (hk : k ≠ []) :
    ∃ db1 db2, Put freshStore k v = .done db1 none ∧ Del db1 k = .done db2 none ∧
      Get db2 k = .error .keyDoesNotExist ∧
      ∀ c db3 err, Merge db2 c = .done db3 err → Get db3 k = .error .keyDoesNotExist := by
  obtain ⟨db1, db2, h1, h2, h3⟩ := Put_Del_absent freshStore k v hk rfl
  refine ⟨db1, db2, h1, h2, Get_of_absent db2 k hk h3, fun c db3 err hm => ?_⟩
  apply Get_of_absent db3 k hk
  rw [Merge_indexes_of_nonempty_key db2 db3 c err hm k hk]
  exact h3

/-- The narrow range on which `Merge` compacts as intended: the directory has no merge file
left behind, the log is a concatenation of records below `2^32` bytes and the tail offset is
not before its end. A call that returns nil then leaves the live records in file order,
indexed at their new offsets, and a log that did not grow. Such a call has met only records
with an empty key and value, so it kept one record at most. -/
theorem Merge_output_without_stale_file (db db1 : MarmotKV) (rs : List Entry)
    (hdata : db.marmotFile.data = encodeAll rs)
    (hsz : ∀ r ∈ rs, r.GetSize < 2 ^ 32)
    (htail : db.marmotFile.data.length ≤ db.marmotFile.Offset)
    (h : Merge db [] = .done db1 none) :
    db1.marmotFile.data = encodeAll (liveRecords db.indexes 0 rs) ∧
    (∀ p ∈ withOffsets 0 (liveRecords db.indexes 0 rs), db1.indexes p.1.Key = some p.2) ∧
    db1.marmotFile.data.length ≤ db.marmotFile.data.length := by
  rcases Merge_done_cases db db1 [] none h with
    ⟨h1, h2⟩ | ⟨_, _, _, batch, hlen, hb, hm, hd1, _, hidx⟩
  · have hoff := h2 rfl
    have hnil : db.marmotFile.data = [] := List.length_eq_zero.mp (by omega)
    have hrs : rs = [] := encodeAll_eq_nil rs (by rw [← hdata, hnil])
    subst hrs
    rw [h1]
    simp [liveRecords, withOffsets, encodeAll, hnil]
  · obtain ⟨_, hb2⟩ := mergeLoop_of_records rs _ db (NewMergeMarmotFile []) [] [] batch
      (by simpa using hdata) hsz (Or.inl rfl) hm
    simp only [List.nil_append, List.length_nil] at hb2
    have hd2 : db1.marmotFile.data = encodeAll batch := by
      rw [hd1]; simp [writeAt]
    rw [← hb2]
    refine ⟨hd2, ?_, ?_⟩
    · match batch, hlen, hb with
      | [], _, _ => simp [withOffsets]
      | [e], _, hb1 =>
        obtain ⟨hK, _⟩ := hb1 e (by simp)
        intro p hp
        simp only [withOffsets, List.mem_singleton] at hp
        rw [hidx, hp]
        simp [Index.set, hK]
      | _ :: _ :: _, hl, _ => simp at hl
    · rw [hd2, hb2, hdata]
      exact encodeAll_liveRecords_length _ _ _

/-! ## The claims -/

/-- C1, evaluated on the code: on the engine opened on an empty directory, `Put("hello",
"world")` returns nil, and the `Get("hello")` that follows returns the error
"invalid buffer length" instead of the value "world". -/
theorem Put_Get_hello_world_fails :
    ∃ db, Open [] = .ok freshStore ∧ Put freshStore hello world = .done db none ∧
      Get db hello = .error .invalidBufferLength := by
  refine ⟨_, rfl, rfl, ?_⟩
  decide

/-- C2: on every engine whose data file is open, for every non-empty key `k` and every value
`v`, `Put(k, v)` and then `Del(k)` both return nil, and the `Get(k)` that follows fails with the
key-not-found error. -/
theorem Put_Del_Get_keyNotFound (db : MarmotKV) (k v : List Byte) (hk : k ≠ [])
    (hopen : db.marmotFile.closed = false) :
    ∃ db1 db2, Put db k v = .done db1 none ∧ Del db1 k = .done db2 none ∧
      Get db2 k = .error .keyDoesNotExist := by
  have hlen : k.length ≠ 0 := by
    intro h; exact hk (List.length_eq_zero.mp h)
  obtain ⟨mf, hw, hc, _⟩ := Write_of_open db.marmotFile (NewEntry k v PUT) hopen
  obtain ⟨mf2, hw2, _, _⟩ := Write_of_open mf (NewEntry k [] DEL) hc
  refine ⟨{ indexes := db.indexes.set k db.marmotFile.Offset, marmotFile := mf },
    { indexes := (db.indexes.set k db.marmotFile.Offset).delete k, marmotFile := mf2 }, ?_, ?_, ?_⟩
  · simp [Put, hlen, hw]
  · simp [Del, hlen, hw2, Index.set]
  · simp [Get, hlen, Index.delete]

/-- Witness of C2 at the key "hello" and the value "world", on the engine opened on an empty
directory. -/
theorem Put_Del_Get_keyNotFound_witness :
    hello ≠ [] ∧ freshStore.marmotFile.closed = false ∧
    ∃ db1 db2, Put freshStore hello world = .done db1 none ∧ Del db1 hello = .done db2 none ∧
      Get db2 hello = .error .keyDoesNotExist :=
  ⟨by decide, rfl, Put_Del_Get_keyNotFound freshStore hello world (by decide) rfl⟩

/-- C3, evaluated on the code: after `Put("a","1")`, `Put("a","2")`, `Del("b")` on the engine
opened on an empty directory, then `Close` and `Open`, `Get("a")` fails with the key-not-found
error instead of returning "2" (the replay stopped at the first record and left the index
empty); `Get("b")` fails with key-not-found as well. Before `Close`, `Get("a")` failed with
"invalid buffer length". -/
theorem restart_loses_key_a :
    ∃ db db1, runOps freshStore [.put keyA val1, .put keyA val2, .del keyB] = .done db none ∧
      reopen db = .ok db1 ∧
      Get db1 keyA = .error .keyDoesNotExist ∧ Get db1 keyB = .error .keyDoesNotExist ∧
      Get db keyA = .error .invalidBufferLength := by
  refine ⟨_, _, rfl, rfl, ?_, ?_, ?_⟩ <;> decide

/-- C4, evaluated on the code: after `Put("a","1")` on the engine opened on an empty
directory, `Merge` returns the error "error reading entry". -/
theorem Merge_fails_after_one_Put :
    ∃ db db1, Put freshStore keyA val1 = .done db none ∧
      Merge db [] = .done db1 (some .errorReadingEntry) := by
  exact ⟨_, _, rfl, rfl⟩

/-- C5 as stated fails: for the key of `2^32` zero bytes with an empty value, `Decode` of the
encoding returns the error "invalid buffer length" (the key length does not fit the 32-bit
field of the header). -/
theorem Decode_Encode_fails_at_large_key :
    Decode (NewEntry (List.replicate (2 ^ 32) 0) [] PUT).Encode = .error .invalidBufferLength :=
  Decode_Encode_of_key_length (List.replicate (2 ^ 32) 0) (List.length_replicate _ _)

/-- C5, amended: for every key `k`, value `v` (either may be empty) and tag `op` whose record
size `10 + len k + len v` is below `2^32`, `Decode` of the encoding succeeds and yields the
entry with key `k`, value `v` and mark `op`. -/
theorem Decode_Encode_roundtrip (k v : List Byte) (op : Uint16)
    (h : entryHeaderSize + k.length + v.length < 2 ^ 32) :
    Decode (NewEntry k v op).Encode = .ok { Key := k, Value := v, Mark := op } :=
  Decode_Encode_of_small (NewEntry k v op) h

/-- Witness of C5 at an empty key, the value "1" and the tag `DEL`. -/
theorem Decode_Encode_roundtrip_witness :
    entryHeaderSize + ([] : List Byte).length + val1.length < 2 ^ 32 ∧
    Decode (NewEntry [] val1 DEL).Encode = .ok { Key := [], Value := val1, Mark := DEL } :=
  ⟨by decide, Decode_Encode_roundtrip [] val1 DEL (by decide)⟩

/-- C6, evaluated on the code: on the log that holds the single record `Put("a","1")`, the
index built by `Open` does not contain "a", although the last record for "a" is a `Put` (at
offset 0). -/
theorem replay_misses_put_record :
    ∃ db, Open (NewEntry keyA val1 PUT).Encode = .ok db ∧ db.indexes keyA = none := by
  exact ⟨_, rfl, rfl⟩

/-- C7, evaluated on the code: on a file whose bytes are exactly the encoding of
`Put("a","1")`, `Read(0)` returns the error "invalid buffer length" instead of the entry. -/
theorem Read_rejects_encoded_entry :
    (NewMarmotFile (NewEntry keyA val1 PUT).Encode).Read 0 = .error .invalidBufferLength := by
  decide

/-- C8, evaluated on the code: on a handle just opened on a file that holds the 11 bytes of
`Put("a","")`, the tail `Offset` is 11, and `Write` of the entry `Put("b","")` returns nil with
the tail at 22, but the 11 bytes went to the start of the file: the file still has 11 bytes,
now the encoding of the new entry, and the old record is overwritten. -/
theorem Write_after_reopen_overwrites_head :
    (NewMarmotFile (NewEntry keyA [] PUT).Encode).Offset = 11 ∧
    (NewMarmotFile (NewEntry keyA [] PUT).Encode).Write (NewEntry keyB [] PUT) =
      .done { name := .FileName, data := (NewEntry keyB [] PUT).Encode, pos := 11,
              closed := false, Offset := 22 } none ∧
    (NewEntry keyB [] PUT).Encode ≠ (NewEntry keyA [] PUT).Encode := by
  decide

/-- C9, evaluated on the code: the 10-byte buffer whose header declares a key of 1 byte and a
value of `2^32 - 1` bytes has a length different from `10 + 1 + (2^32 - 1)`, yet `Decode` does
not return an error: the 32-bit sum wraps to 10, the length test passes and the slice
expression panics. -/
theorem Decode_wrapped_sum_not_rejected :
    ([0, 0, 0, 1, 255, 255, 255, 255, 0, 0] : List Byte).length ≠ 10 + 1 + (2 ^ 32 - 1) ∧
    Uint32 (([0, 0, 0, 1, 255, 255, 255, 255, 0, 0] : List Byte).take 4) = 1 ∧
    Uint32 ((([0, 0, 0, 1, 255, 255, 255, 255, 0, 0] : List Byte).drop 4).take 4) = 2 ^ 32 - 1 ∧
    Decode [0, 0, 0, 1, 255, 255, 255, 255, 0, 0] = .panic .sliceBoundsOutOfRange := by
  decide

/-- C10, evaluated on the code: on the 10-byte buffer whose header declares a key of
`2^32 - 1` bytes and a value of 1 byte, `Decode` passes the length test (the 32-bit sum wraps
to 10) and panics in the slice expression `buf[10:9]`. -/
theorem Decode_panics_on_adversarial_header :
    Decode [255, 255, 255, 255, 0, 0, 0, 1, 0, 0] = .panic .sliceBoundsOutOfRange := by
  decide

/-- C11: for every key `k`, value `v` and tag `op`, `Encode` returns exactly the big-endian
32-bit key length, the big-endian 32-bit value length, the big-endian 16-bit tag, the key and
the value, in this order (a length field holds the low 32 bits of the length); its length is
`10 + len k + len v` and equals `GetSize`; `PUT` is 0 and `DEL` is 1. -/
theorem Encode_layout (k v : List Byte) (op : Uint16) :
    (NewEntry k v op).Encode = specRecord k v op ∧
    (NewEntry k v op).Encode.length = 10 + k.length + v.length ∧
    (NewEntry k v op).Encode.length = (NewEntry k v op).GetSize ∧
    PUT.val = 0 ∧ DEL.val = 1 := by
  refine ⟨?_, ?_, Encode_length _, rfl, rfl⟩
  · simp only [Entry.Encode, specRecord, NewEntry, PutUint32_eq_spec, PutUint16_eq_spec]
  · rw [Encode_length]; rfl

/-- C12: for every engine state and every key `k` that is not in the index, `Del(k)` returns
nil and leaves the engine as it was: the log bytes, the tail offset and the index. -/
theorem Del_absent_noop (db : MarmotKV) (k : List Byte) (h : db.indexes k = none) :
    Del db k = .done db none := by
  unfold Del
  split_ifs
  · rfl
  · simp only [h]

/-- Witness of C12 at the key "b" on the engine opened on an empty directory. -/
theorem Del_absent_noop_witness :
    freshStore.indexes keyB = none ∧ Del freshStore keyB = .done freshStore none :=
  ⟨rfl, Del_absent_noop freshStore keyB rfl⟩

/-- C15: for every engine state and every value `v`, `Put` and `Del` with an empty key return
nil and leave the engine (log and index) as it was, and `Get` with an empty key returns a nil
value with a nil error. -/
theorem empty_key_noop (db : MarmotKV) (v : List Byte) :
    Put db [] v = .done db none ∧ Del db [] = .done db none ∧ Get db [] = .ok none :=
  ⟨rfl, rfl, rfl⟩

/-- C20: for every byte buffer on which `Decode` returns an entry, `Encode` of that entry
returns exactly the buffer. -/
theorem Encode_Decode (buf : List Byte) (e : Entry) (h : Decode buf = .ok e) :
    e.Encode = buf :=
  Decode_ok_Encode buf e h

/-- Witness of C20 at the 12 bytes that encode `Put("a","1")`. -/
theorem Encode_Decode_witness :
    Decode [0, 0, 0, 1, 0, 0, 0, 1, 0, 0, 97, 49] = .ok (NewEntry keyA val1 PUT) ∧
    (NewEntry keyA val1 PUT).Encode = [0, 0, 0, 1, 0, 0, 0, 1, 0, 0, 97, 49] :=
  ⟨by decide, Encode_Decode [0, 0, 0, 1, 0, 0, 0, 1, 0, 0, 97, 49] (NewEntry keyA val1 PUT)
    (by decide)⟩

/-- C13: for every engine state, whatever the merge file holds when the call starts, if `Merge`
returns an error, the engine is exactly as it was before the call: the same index and the same
data file (bytes and tail offset). -/
theorem Merge_error_leaves_engine (db db1 : MarmotKV) (mergeContent : List Byte) (err : GoError)
    (h : Merge db mergeContent = .done db1 (some err)) :
    db1.indexes = db.indexes ∧ db1.marmotFile = db.marmotFile := by
  rcases Merge_done_cases db db1 mergeContent (some err) h with ⟨h1, _⟩ | ⟨h1, _⟩
  · rw [h1]
    exact ⟨rfl, rfl⟩
  · exact Option.noConfusion h1

/-- Witness of C13 on the engine that holds `Put("a","1")`, in a directory without a merge
file: `Merge` returns the error "error reading entry". -/
theorem Merge_error_leaves_engine_witness :
    Put freshStore keyA val1 = .done storeA none ∧
    Merge storeA [] = .done storeA (some .errorReadingEntry) ∧
    (storeA.indexes = storeA.indexes ∧ storeA.marmotFile = storeA.marmotFile) :=
  ⟨rfl, rfl, Merge_error_leaves_engine storeA storeA [] .errorReadingEntry rfl⟩

/-- C16, evaluated on the code: after `Put("a","1")` and `Del("a")` on the engine opened on an
empty directory, `Get("a")` returns a nil value with the key-not-found error, where the tests
expect a nil error. -/
theorem Put_Del_Get_returns_error :
    ∃ db1 db2, Put freshStore keyA val1 = .done db1 none ∧ Del db1 keyA = .done db2 none ∧
      Get db2 keyA = .error .keyDoesNotExist ∧ Get db2 keyA ≠ .ok none := by
  refine ⟨_, _, rfl, rfl, ?_, ?_⟩ <;> decide

/-- C19, evaluated on the code: a first session puts ("a","1") into an empty directory; a
second session opens the directory and puts ("b","2"). Both calls of `Put` return nil, and the
index then maps "b" to offset 12, where the log holds nothing: the log is 12 bytes long (the
new record was written over the old one at offset 0), so no `Put` record of "b" begins at 12. -/
theorem index_points_past_log_after_reopen :
    ∃ db2 db3, Put freshStore keyA val1 = .done storeA none ∧ reopen storeA = .ok db2 ∧
      Put db2 keyB val2 = .done db3 none ∧ db3.indexes keyB = some 12 ∧
      db3.marmotFile.data = (NewEntry keyB val2 PUT).Encode ∧
      db3.marmotFile.data.length = 12 ∧ ¬ HoldsPutRecord db3.marmotFile.data 12 keyB := by
  refine ⟨_, _, rfl, rfl, rfl, rfl, by decide, by decide, ?_⟩
  rintro ⟨v, post, h⟩
  have hl := congrArg List.length h
  rw [List.drop_eq_nil_of_le (by decide)] at hl
  simp only [List.length_nil, List.length_append, Encode_length, Entry.GetSize,
    entryHeaderSize] at hl
  omega

/-- C18, evaluated on the code: the directory holds a log of one record with an empty key and
value, which the index points at, and a merge file of 20 bytes left behind by an interrupted
call. `Merge` returns nil, but the new log is not the encoding of the live record: it is the
20 bytes of the old merge file with the record written over its start, so it is longer than
the old log, and the index maps the key to offset 20, the end of that log. -/
theorem Merge_writes_over_stale_merge_file :
    ∃ db1, Open emptyRecordLog = .ok storeE ∧
      storeE.marmotFile.data = encodeAll [NewEntry [] [] PUT] ∧
      liveRecords storeE.indexes 0 [NewEntry [] [] PUT] = [NewEntry [] [] PUT] ∧
      Merge storeE staleMergeFile = .done db1 none ∧
      db1.marmotFile.data = (NewEntry [] [] PUT).Encode ++ hello ++ world ∧
      db1.marmotFile.data ≠ encodeAll [NewEntry [] [] PUT] ∧
      db1.indexes [] = some 20 ∧
      db1.marmotFile.data.length = 20 ∧ storeE.marmotFile.data.length = 10 := by
  refine ⟨_, rfl, by decide, by decide, rfl, ?_, ?_, ?_, ?_, ?_⟩ <;> decide

/-- C17, evaluated on the code: on the engine that holds `Put("a","1")`, `Merge` reads the
data file for its scan and returns without ever taking the mutex; on the engine opened on a
log of one record with an empty key, `Merge` reads the data file and the index and writes the
index before it takes the mutex, which it holds for the swap only. In both runs the directory
has no merge file. -/
theorem Merge_accesses_index_unlocked :
    MergeEvents storeA [] = [.readFile 0] ∧
    lockHeldThroughout false (MergeEvents storeA []) = false ∧
    MergeEvents storeE [] =
      [.readFile 0, .readIndex [], .readFile 10, .writeIndex [] 0, .lock, .swapFile, .unlock] ∧
    lockHeldThroughout false (MergeEvents storeE []) = false := by
  decide

end Marmot
